import Mathlib

/-!
# Verification of the toggl-sync worklog reconciliation engine

A shallow embedding of the core text-merge/reconciliation code of the
repository (`toggl_github_sync/sync.py`, `formatter.py`, `api/github.py`,
`api/toggl.py`) together with theorems settling the specification claims.

Modelling conventions:
* Python strings are Lean `String`s; the string algorithms work on `List Char`.
* Python `float` values that the code manipulates (hour totals, similarity
  ratios) are modelled as exact rationals `ℚ`; `repr` of a float is modelled
  as the canonical shortest decimal rendering, which agrees with CPython on
  every value the code produces (decimals of few significant digits).
* Python `datetime` values produced by `strptime` are encoded as natural
  numbers: `ordinal * 86400000000 + microsecond-of-day`, which realises the
  chronological order used by `datetime` comparison.
* I/O (the Toggl fetches, the GitHub read/write) is the external boundary;
  its results are inputs of the embedded functions, and exceptions at the
  boundary are modelled with `Except` in the failure-semantics model.
-/

set_option maxRecDepth 10000

namespace TG


/-! ## Character classes (ASCII fragment of Python `str.isspace` / `\s`, `\d`, `[A-Za-z]`) -/

/-- Whitespace as Python `str.strip` and `re` `\s` treat it (ASCII fragment). -/

def isSpc (c : Char) : Bool :=
  c = ' ' || c = '\t' || c = '\n' || c = '\r' || c = '\x0b' || c = '\x0c'

/-- Decimal digit (`\d`, ASCII). -/

def isDig (c : Char) : Bool := '0' ≤ c && c ≤ '9'

/-- Letter (`[A-Za-z]`). -/

def isAlp (c : Char) : Bool := ('A' ≤ c && c ≤ 'Z') || ('a' ≤ c && c ≤ 'z')

/-- Value of a digit character. -/

def digVal (c : Char) : Nat := c.toNat - '0'.toNat

/-- Character of a digit value (`0 ≤ d ≤ 9`). -/

def digChr (d : Nat) : Char := Char.ofNat ('0'.toNat + d)

/-! ## Decimal digit lists for naturals

`digsLE fuel n` is the little-endian digit list of `n` (empty for `0`);
`natChars n` the usual big-endian decimal character rendering. -/

/-- Little-endian decimal digits, structurally recursive on fuel. -/

def digsLE : Nat → Nat → List Nat
  | 0, _ => []
  | _ + 1, 0 => []
  | fuel + 1, n + 1 => (n + 1) % 10 :: digsLE fuel ((n + 1) / 10)

/-- The little-endian decimal digits of `n`. -/

def natDigsLE (n : Nat) : List Nat := digsLE n n

/-- Value of a little-endian digit list. -/

def valLE (l : List Nat) : Nat := l.foldr (fun d acc => d + 10 * acc) 0

/-- Big-endian decimal character rendering of a natural (Python `str(n)`). -/

def natChars (n : Nat) : List Char :=
  if n = 0 then ['0'] else ((natDigsLE n).reverse.map digChr)

/-- Numeric value of a big-endian run of digit characters (Python `int(s)`). -/

def charsVal (l : List Char) : Nat := l.foldl (fun acc c => 10 * acc + digVal c) 0

/-! ## Decimal rendering of Python floats

The float values the code renders (`f"{total_hours}"`, `f"{hours}"`) are
decimals of few significant digits; CPython `repr` prints them as the
canonical shortest decimal, modelled here exactly on `ℚ`. -/

/-- Least `k` with `10 ^ k` divisible by `d`, searched with fuel. -/

def minPow10Go : Nat → Nat → Nat → Nat
  | 0, k, _ => k
  | fuel + 1, k, d => if 10 ^ k % d = 0 then k else minPow10Go fuel (k + 1) d

/-- Least `k` with `d ∣ 10 ^ k` (for `d` of the form `2^a * 5^b`). -/

def minPow10 (d : Nat) : Nat := minPow10Go (d + 1) 0 d

/-- Exactly `k` decimal digit characters of `v` (`v < 10 ^ k`), big-endian. -/

def fixDigs : Nat → Nat → List Char
  | 0, _ => []
  | k + 1, v => fixDigs k (v / 10) ++ [digChr (v % 10)]

/-- Canonical decimal rendering of a nonnegative rational with terminating
decimal expansion; always carries at least one fractional digit, like the
`repr` of a Python float. -/

def reprDecNN (q : ℚ) : List Char :=
  if minPow10 q.den = 0 then natChars q.num.toNat ++ ['.', '0']
  else
    natChars ((q * (10 : ℚ) ^ minPow10 q.den).num.toNat / 10 ^ minPow10 q.den) ++
      '.' :: fixDigs (minPow10 q.den) ((q * (10 : ℚ) ^ minPow10 q.den).num.toNat % 10 ^ minPow10 q.den)

/-- Model of CPython `repr` / `str` of a float holding such a decimal. -/

def pyFloatRepr (q : ℚ) : List Char :=
  if q < 0 then '-' :: reprDecNN (-q) else reprDecNN q

/-- Numeric value of the two digit groups of an hours literal
(Python `float("<int>.<frac>")`). -/

def hoursVal (ip fp : List Char) : ℚ :=
  (charsVal ip : ℚ) + (charsVal fp : ℚ) / (10 : ℚ) ^ fp.length

/-- Round half to even to an integer (CPython `round`). -/

def halfEven (q : ℚ) : Int :=
  let f := q.floor
  if q - f < 1 / 2 then f
  else if (1 : ℚ) / 2 < q - f then f + 1
  else if f % 2 = 0 then f else f + 1

/-- CPython `round(x, 1)` on the exact decimal model. -/

def round1 (q : ℚ) : ℚ := (halfEven (q * 10) : ℚ) / 10

/-! ## Proleptic Gregorian calendar (as Python `datetime.date`) -/

/-- Gregorian leap year. -/

def isLeap (y : Nat) : Bool := (y % 4 = 0 && ¬ y % 100 = 0) || y % 400 = 0

/-- Days in a month. -/

def daysInMonth (y m : Nat) : Nat :=
  if m = 2 then (if isLeap y then 29 else 28)
  else if m = 4 || m = 6 || m = 9 || m = 11 then 30
  else 31

/-- The dates `datetime(y, m, d)` accepts. -/

def isValidDate (y m d : Nat) : Bool :=
  1 ≤ y && y ≤ 9999 && 1 ≤ m && m ≤ 12 && 1 ≤ d && d ≤ daysInMonth y m

/-- Days before January 1 of year `y` (`date.toordinal` helper). -/

def daysBeforeYear (y : Nat) : Nat :=
  365 * (y - 1) + (y - 1) / 4 - (y - 1) / 100 + (y - 1) / 400

/-- Days before the first of month `m` in year `y`. -/

def daysBeforeMonth (y m : Nat) : Nat :=
  (List.take (m - 1) [31, 28, 31, 30, 31, 30, 31, 31, 30, 31, 30, 31]).sum +
    (if 2 < m && isLeap y then 1 else 0)

/-- Python `date(y, m, d).toordinal()`: `0001-01-01` is day 1. -/

def toOrd (y m d : Nat) : Nat := daysBeforeYear y + daysBeforeMonth y m + d

/-- Python `date.weekday()`: Monday is 0. -/

def pyWeekday (y m d : Nat) : Nat := (toOrd y m d + 6) % 7

/-- First three letters of the English day name, Monday first
(`calendar.day_name[w][:3]`). -/

def dayAbbr (w : Nat) : String :=
  (["Mon", "Tue", "Wed", "Thu", "Fri", "Sat", "Sun"].getD w "Mon")

/-! ## Python string helpers on `List Char` -/

/-- Python `str.strip()` (ASCII whitespace). -/

def pyStripL (l : List Char) : List Char :=
  ((l.dropWhile isSpc).reverse.dropWhile isSpc).reverse

/-- Python `str.strip()` on `String`. -/

def pyStrip (s : String) : String := ⟨pyStripL s.data⟩

/-- Python `str.lstrip('\n')`. -/

def lstripNlL (l : List Char) : List Char := l.dropWhile (fun c => c = '\n')

/-- Python `str.rstrip('\n')`. -/

def rstripNlL (l : List Char) : List Char :=
  (l.reverse.dropWhile (fun c => c = '\n')).reverse

/-- Python `str.split(c)` for a one-character separator. -/

def splitOnCharL (c : Char) : List Char → List (List Char)
  | [] => [[]]
  | x :: t =>
    if x = c then [] :: splitOnCharL c t
    else
      match splitOnCharL c t with
      | [] => [[x]]
      | h :: r => (x :: h) :: r

/-- Join with a separator (Python `sep.join`). -/

def joinWithL (sep : List Char) : List (List Char) → List Char
  | [] => []
  | [x] => x
  | x :: y :: t => x ++ sep ++ joinWithL sep (y :: t)

/-- Python `str.startswith` on char lists. -/

def startsWithL : List Char → List Char → Bool
  | [], _ => true
  | _ :: _, [] => false
  | p :: pt, x :: xt => p = x && startsWithL pt xt

/-- Index of the first occurrence of `c` (Python `str.find`), if any. -/

def findCharL (c : Char) : List Char → Option Nat
  | [] => none
  | x :: t =>
    if x = c then some 0
    else (findCharL c t).map (· + 1)

/-! ## Deterministic matchers for the regular expressions of the source

Each regex of the source is compiled by hand into a total matcher.  The
quantifiers involved (`\d{4}`, `\d{1,2}`, `+`, `*`, `?`) sit next to tokens
from disjoint character classes, so greedy matching with one step of
backtracking (carried out in `take12Then` / `take12Before`) is exactly the
Python `re` behaviour. -/

/-- Match `\d{4}` exactly. -/

def take4Digs : List Char → Option (List Char × List Char)
  | a :: b :: c :: d :: rest =>
    if isDig a && isDig b && isDig c && isDig d then some ([a, b, c, d], rest) else none
  | _ => none

/-- Match `\d{1,2}` greedily, then the literal `ch`, consuming it;
backtracks from two digits to one as `re` does. -/

def take12Then (ch : Char) : List Char → Option (List Char × List Char)
  | [] => none
  | a :: rest =>
    if ¬ isDig a then none
    else
      match rest with
      | [] => none
      | b :: rest2 =>
        if isDig b then
          match rest2 with
          | c :: rest3 =>
            if c = ch then some ([a, b], rest3)
            else if b = ch then some ([a], rest2)
            else none
          | [] => if b = ch then some ([a], rest2) else none
        else if b = ch then some ([a], rest2) else none

/-- Match `\d{1,2}` greedily, requiring the follower to satisfy `p`
without consuming it. -/

def take12Before (p : Char → Bool) : List Char → Option (List Char × List Char)
  | [] => none
  | a :: rest =>
    if ¬ isDig a then none
    else
      match rest with
      | [] => none
      | b :: rest2 =>
        if isDig b then
          match rest2 with
          | c :: _ =>
            if p c then some ([a, b], rest2)
            else if p b then some ([a], rest)
            else none
          | [] => if p b then some ([a], rest) else none
        else if p b then some ([a], rest) else none

/-- Match `p+` (greedy, at least one). -/

def takeWhile1 (p : Char → Bool) (l : List Char) : Option (List Char × List Char) :=
  match l.takeWhile p with
  | [] => none
  | tk => some (tk, l.dropWhile p)

/-- Match a literal character. -/

def expectC (c : Char) : List Char → Option (List Char)
  | [] => none
  | x :: t => if x = c then some t else none

/-- Match an optional literal character (`c?`). -/

def optC (c : Char) (l : List Char) : Bool × List Char :=
  match l with
  | [] => (false, l)
  | x :: t => if x = c then (true, t) else (false, l)

/-- Match `[A-Za-z]{3}` exactly. -/

def take3Alpha : List Char → Option (List Char × List Char)
  | a :: b :: c :: rest =>
    if isAlp a && isAlp b && isAlp c then some ([a, b, c], rest) else none
  | _ => none

/-! ## The worklog formatter (`formatter.py`) -/

/-- The parsed form of a worklog line (`WorklogFormatter.parse_entry` result). -/

structure PEntry where
  y : Nat
  m : Nat
  d : Nat
  dayName : String
  hours : ℚ
  hasRunningEntry : Bool
  descriptions : List String
  descriptionText : String
deriving DecidableEq

/-- Groups of the `parse_entry` pattern
`(\d{4}-\d{1,2}-\d{1,2}) ([A-Za-z]{3}) \((\d+\.?\d*)h(\+?)\): (.*)`,
matched at the start of the line (`re.match`). -/

def peMatch (l : List Char) :
    Option (List Char × List Char × List Char × List Char × List Char × List Char ×
      Bool × List Char) := do
  let (y4, r1) ← take4Digs l
  let r2 ← expectC '-' r1
  let (md, r3) ← take12Then '-' r2
  let (dd, r4) ← take12Then ' ' r3
  let (day3, r5) ← take3Alpha r4
  let r6 ← expectC ' ' r5
  let r7 ← expectC '(' r6
  let (ip, r8) ← takeWhile1 isDig r7
  let (_, r9) := optC '.' r8
  let fp := r9.takeWhile isDig
  let r10 := r9.dropWhile isDig
  let r11 ← expectC 'h' r10
  let (plus, r12) := optC '+' r11
  let r13 ← expectC ')' r12
  let r14 ← expectC ':' r13
  let r15 ← expectC ' ' r14
  let desc := r15.takeWhile (fun c => ¬ c = '\n')
  pure (y4, md, dd, day3, ip, fp, plus, desc)

/-- `WorklogFormatter.parse_entry`. -/

def parseEntry (s : String) : Option PEntry :=
  match peMatch s.data with
  | none => none
  | some (y4, md, dd, day3, ip, fp, plus, desc) =>
    let dateStr := y4 ++ '-' :: md ++ '-' :: dd
    let parts := splitOnCharL '-' dateStr
    let y := charsVal (parts.getD 0 [])
    let m := charsVal (parts.getD 1 [])
    let d := charsVal (parts.getD 2 [])
    if isValidDate y m d then
      some ⟨y, m, d, ⟨day3⟩, hoursVal ip fp, plus,
        ((((splitOnCharL '.' desc).map pyStripL).filter (fun p => ¬ p = [])).map
          (fun p => (⟨p⟩ : String))),
        ⟨desc⟩⟩
    else none

/-- Description joining of `format_entry`: `". ".join` plus a trailing
period when non-empty. -/

def joinDescs (descs : List String) : List Char :=
  let t := joinWithL ['.', ' '] (descs.map String.data)
  if t ≠ [] ∧ ¬ t.getLast? = some '.' then t ++ ['.'] else t

/-- `WorklogFormatter.format_entry` (the date passed as `y`, `m`, `d`). -/

def formatEntry (y m d : Nat) (hours : ℚ) (descs : List String) (running : Bool) : String :=
  ⟨natChars y ++ '-' :: natChars m ++ '-' :: natChars d ++
    ' ' :: (dayAbbr (pyWeekday y m d)).data ++
    ' ' :: '(' :: pyFloatRepr hours ++ 'h' :: (if running then ['+'] else []) ++
    ')' :: ':' :: ' ' :: joinDescs descs⟩

/-- Order-preserving union on exact string equality
(the accumulator loop of `merge_entries`). -/

def dedupExact (l : List String) : List String :=
  l.foldl (fun acc d => if d ∈ acc then acc else acc ++ [d]) []

/-- `WorklogFormatter.merge_entries`. -/

def mergeEntries (existing new : String) : String :=
  match parseEntry existing, parseEntry new with
  | some pe, some pn =>
    formatEntry pe.y pe.m pe.d (max pe.hours pn.hours)
      (dedupExact (pe.descriptions ++ pn.descriptions))
      (pe.hasRunningEntry || pn.hasRunningEntry)
  | _, _ => new

/-! ## `difflib.SequenceMatcher` (as used by the description deduplicator)

`SequenceMatcher(None, a, b).ratio()` with no junk predicate: `b2j` holds
the positions of each element of `b`, minus the "popular" elements when
autojunk applies (`len(b) >= 200`); `find_longest_match` runs the `j2len`
dynamic program and then the two non-junk extension loops (the junk
extension loops are vacuous since the junk set is empty); `ratio` is twice
the total matched size over the total length.  Ratios are exact here
(`ℚ`); CPython computes them in floats, which agrees on every feasible
input. -/

/-- Autojunk popularity test of `SequenceMatcher.__chain_b`. -/

def isPopular (b : List Char) (c : Char) : Bool :=
  decide (200 ≤ b.length) && decide (b.length / 100 + 1 < b.count c)

/-- Ascending positions of `c` in `b` as `b2j` records them
(empty for popular elements). -/

def posList (b : List Char) (c : Char) : List Nat :=
  if isPopular b c then []
  else (List.range b.length).filter (fun j => b.get? j = some c)

/-- Lookup in the `j2len` association list, defaulting to `0`. -/

def lookupJ2 (al : List (Nat × Nat)) (k : Nat) : Nat :=
  match al.find? (fun p => p.1 = k) with
  | some p => p.2
  | none => 0

/-- One row of the `j2len` dynamic program: fold over the positions of
`a[i]` in `b`, building the new row and updating the best block. -/

def flmRow (blo bhi i : Nat) (j2len : List (Nat × Nat)) :
    List Nat → List (Nat × Nat) × (Nat × Nat × Nat) → List (Nat × Nat) × (Nat × Nat × Nat)
  | [], st => st
  | j :: js, (newRow, best) =>
    if j < blo then flmRow blo bhi i j2len js (newRow, best)
    else if bhi ≤ j then (newRow, best)
    else
      let k := (if j = 0 then 0 else lookupJ2 j2len (j - 1)) + 1
      let best2 := if best.2.2 < k then (i + 1 - k, j + 1 - k, k) else best
      flmRow blo bhi i j2len js (newRow ++ [(j, k)], best2)

/-- The main loop of `find_longest_match` over `i ∈ [alo, ahi)`. -/

def flmMain (a b : List Char) (blo bhi : Nat) :
    List Nat → List (Nat × Nat) → (Nat × Nat × Nat) → (Nat × Nat × Nat)
  | [], _, best => best
  | i :: is, j2len, best =>
    let cs := match a.get? i with
      | some c => posList b c
      | none => []
    let (newRow, best2) := flmRow blo bhi i j2len cs ([], best)
    flmMain a b blo bhi is newRow best2

/-- Left extension loop (`while besti > alo and bestj > blo and ... a[besti-1] == b[bestj-1]`). -/

def extLeft (a b : List Char) (alo blo : Nat) : Nat → (Nat × Nat × Nat) → (Nat × Nat × Nat)
  | 0, st => st
  | fuel + 1, (bi, bj, bs) =>
    if alo < bi ∧ blo < bj ∧ (a.get? (bi - 1)).isSome ∧ a.get? (bi - 1) = b.get? (bj - 1) then
      extLeft a b alo blo fuel (bi - 1, bj - 1, bs + 1)
    else (bi, bj, bs)

/-- Right extension loop. -/

def extRight (a b : List Char) (ahi bhi : Nat) : Nat → (Nat × Nat × Nat) → (Nat × Nat × Nat)
  | 0, st => st
  | fuel + 1, (bi, bj, bs) =>
    if bi + bs < ahi ∧ bj + bs < bhi ∧ (a.get? (bi + bs)).isSome ∧
        a.get? (bi + bs) = b.get? (bj + bs) then
      extRight a b ahi bhi fuel (bi, bj, bs + 1)
    else (bi, bj, bs)

/-- `SequenceMatcher.find_longest_match` on `a[alo:ahi]`, `b[blo:bhi]`. -/

def flm (a b : List Char) (alo ahi blo bhi : Nat) : Nat × Nat × Nat :=
  let best := flmMain a b blo bhi (List.range' alo (ahi - alo)) [] (alo, blo, 0)
  let best2 := extLeft a b alo blo best.1 best
  extRight a b ahi bhi (ahi - (best2.1 + best2.2.2)) best2

/-- Total size of the matching blocks (the recursion of
`get_matching_blocks`; the adjacent-block merge does not change the sum). -/

def msTotal (a b : List Char) : Nat → Nat → Nat → Nat → Nat → Nat
  | 0, _, _, _, _ => 0
  | fuel + 1, alo, ahi, blo, bhi =>
    let (i, j, k) := flm a b alo ahi blo bhi
    if k = 0 then 0
    else msTotal a b fuel alo i blo j + k + msTotal a b fuel (i + k) ahi (j + k) bhi

/-- `SequenceMatcher(None, a, b).ratio()`. -/

def ratioQ (a b : List Char) : ℚ :=
  if a.length + b.length = 0 then 1
  else 2 * (msTotal a b (a.length + 1) 0 a.length 0 b.length : ℚ) / (a.length + b.length)

/-- The similarity test of the per-day deduplication loop of
`sync_toggl_to_github` (`similarity > 0.85` against the accepted list,
with early exit). -/

def isSimilarB (d : String) (acc : List String) : Bool :=
  acc.any (fun e => decide ((17 : ℚ) / 20 < ratioQ d.data e.data))

/-- One step of the accumulator loop: drop the candidate when it is
similar to an accepted description, else append it. -/

def dedupStep (acc : List String) (d : String) : List String :=
  if isSimilarB d acc then acc else acc ++ [d]

/-- The order-preserving fuzzy deduplication of descriptions
(`sync.py`, the `unique_descriptions` accumulator loop). -/

def dedupSimilar (descs : List String) : List String :=
  descs.foldl dedupStep []

/-! ## The per-day entry computation of `sync_toggl_to_github`

The network boundary (Toggl fetch, current-entry probe, timezone
partitioning of entries into local days) is external; a `Day` carries the
data the loop body receives for one processed calendar date: the entries
whose local start falls on that date, and whether the currently running
entry starts on it.  `now` is the UTC clock reading used for running
entries, in epoch seconds. -/

/-- A fetched time entry, normalized (`id` plays no further role). -/

structure TimeEntry where
  duration : Option Int
  startEpoch : ℚ
  description : Option String
deriving DecidableEq

/-- `TogglApiClient.calculate_daily_hours`: positive durations count as-is,
negative ones as `now - start`, the rest not at all; seconds become hours
rounded (half-even) to one decimal. -/

def calculateDailyHours (now : ℚ) (entries : List TimeEntry) : ℚ :=
  let totalSeconds := entries.foldl (fun acc e =>
    match e.duration with
    | some d => if 0 < d then acc + (d : ℚ)
                else if d < 0 then acc + (now - e.startEpoch)
                else acc
    | none => acc) 0
  round1 (totalSeconds / 3600)

/-- One processed calendar date of the range loop. -/

structure Day where
  y : Nat
  m : Nat
  d : Nat
  entries : List TimeEntry
  hasRunningToday : Bool
deriving DecidableEq

/-- `current_date.strftime("%Y-%-m-%-d")`: unpadded date rendering. -/

def dateStrL (y m d : Nat) : List Char :=
  natChars y ++ '-' :: natChars m ++ '-' :: natChars d

/-- The description collection of the loop body (`sync.py` lines 95-104):
missing or blank descriptions become the redaction placeholder. -/

def rawDescs (entries : List TimeEntry) : List String :=
  entries.map (fun e =>
    match e.description with
    | some s =>
      if s = "" then "[REDACTED - to be updated soon]"
      else if pyStrip s = "" then "[REDACTED - to be updated soon]"
      else pyStrip s
    | none => "[REDACTED - to be updated soon]")

/-- The `new_entry` line built for a (nonzero-hours) day. -/

def dayLine (now : ℚ) (day : Day) : String :=
  let th := calculateDailyHours now day.entries
  let hoursStr := pyFloatRepr th ++ 'h' :: (if day.hasRunningToday then ['+'] else [])
  let uniq := dedupSimilar (rawDescs day.entries)
  let dt0 := joinWithL ['.', ' '] (uniq.map String.data)
  let dt1 :=
    if pyStripL dt0 = [] then "[To be updated]".data
    else if dt0.getLast? = some '.' then dt0
    else dt0 ++ ['.']
  ⟨dateStrL day.y day.m day.d ++ ' ' :: (dayAbbr (pyWeekday day.y day.m day.d)).data ++
    ' ' :: '(' :: hoursStr ++ ')' :: ':' :: ' ' :: dt1⟩

/-! ## `GitHubApiClient.find_entry_for_date`

The pattern is `(date\s+[A-Za-z]+\s*\(\d+\.?\d*h\+?\):\s*.+?)(?=\n\n|\n\*|\Z)`
with `DOTALL`: after the header, the greedy `\s*` swallows the whitespace
run, and the lazy `.+?` stops at the first position where a blank line, a
line starting with `*`, or the end of the text follows (backing the `\s*`
off by one character when it reached the end of the text). -/

/-- The zero-width lookahead `(?=\n\n|\n\*|\Z)` at index `u`. -/

def fedLook (s : List Char) (u : Nat) : Bool :=
  if u = s.length then true
  else
    match s.get? u, s.get? (u + 1) with
    | some '\n', some '\n' => true
    | some '\n', some '*' => true
    | _, _ => false

/-- Least `u` in `[from, len]` satisfying the lookahead, by fuel scan. -/

def scanLook (s : List Char) : Nat → Nat → Nat
  | 0, u => u
  | fuel + 1, u => if fedLook s u then u else scanLook s fuel (u + 1)

/-- Header-and-body match of the `find_entry_for_date` pattern against the
whole suffix `l` (which sits at offset `s.length - l.length` of `s`);
returns the match length. -/

def fedMatchLen (s : List Char) (p : Nat) (dateStr : List Char) : Option Nat := do
  let l := s.drop p
  if ¬ startsWithL dateStr l then none
  else do
    let r0 := l.drop dateStr.length
    let (_, r1) ← takeWhile1 isSpc r0
    let (_, r2) ← takeWhile1 isAlp r1
    let r3 := r2.dropWhile isSpc
    let r4 ← expectC '(' r3
    let (_, r5) ← takeWhile1 isDig r4
    let (_, r6) := optC '.' r5
    let r7 := r6.dropWhile isDig
    let r8 ← expectC 'h' r7
    let (_, r9) := optC '+' r8
    let r10 ← expectC ')' r9
    let r11 ← expectC ':' r10
    let a := p + (l.length - r11.length)
    let w := (r11.takeWhile isSpc).length
    let q0 := a + w
    if q0 = s.length then
      if 0 < w then some (s.length - p) else none
    else
      let u := scanLook s (s.length - (q0 + 1)) (q0 + 1)
      some (u - p)

/-- Leftmost search of the pattern (`re.search`). -/

def fedGo (s : List Char) (dateStr : List Char) : Nat → Nat → Option (Nat × Nat)
  | 0, _ => none
  | fuel + 1, p =>
    match fedMatchLen s p dateStr with
    | some k => some (p, p + k)
    | none => fedGo s dateStr fuel (p + 1)

/-- `GitHubApiClient.find_entry_for_date`: the matched span, if any. -/

def findEntryForDate (content : String) (dateStr : List Char) : Option (Nat × Nat) :=
  fedGo content.data dateStr (content.data.length + 1) 0

/-- Locate-or-insert for one day's line (`sync.py` lines 134-157). -/

def applyEntry (content : String) (day : Day) (entry : String) : String :=
  match findEntryForDate content (dateStrL day.y day.m day.d) with
  | some (s, e) => ⟨content.data.take s ++ entry.data ++ content.data.drop e⟩
  | none =>
    if startsWithL "# ".data content.data then
      let titleEnd := match findCharL '\n' content.data with
        | some i => i + 1
        | none => 0
      ⟨content.data.take titleEnd ++ '\n' :: entry.data ++ '\n' :: content.data.drop titleEnd⟩
    else ⟨entry.data ++ '\n' :: content.data⟩

/-- The body of the per-day loop: skip the day when the rounded hours are
zero, else splice its line in. -/

def dayStep (now : ℚ) (content : String) (day : Day) : String :=
  if calculateDailyHours now day.entries = 0 then content
  else applyEntry content day (dayLine now day)

/-- The whole per-day loop, newest day first. -/

def applyDays (now : ℚ) (content : String) (days : List Day) : String :=
  days.foldl (dayStep now) content

/-! ## The global re-normalization pass (`sync.py` lines 169-281) -/

/-- Split the leading title (`# ...` up to and including its newline) from
the rest (`sync.py` lines 174-181). -/

def stripTitle (l : List Char) : List Char × List Char :=
  if startsWithL "# ".data l then
    match findCharL '\n' l with
    | some i => (l.take (i + 1), l.drop (i + 1))
    | none => (l, [])
  else ([], l)

/-- End-of-line position test (`$` in `MULTILINE`, or end of text). -/

def eolAt (l : List Char) (q : Nat) : Bool :=
  q = l.length || l.get? q = some '\n'

/-- Largest `q` in `[k, k+c]` with `eolAt`, scanning downward (the
backtracking of a greedy `\s*` before `$`). -/

def backFindEol (l : List Char) (k : Nat) : Nat → Option Nat
  | 0 => if eolAt l k then some k else none
  | c + 1 => if eolAt l (k + c + 1) then some (k + c + 1) else backFindEol l k c

/-- Match `^\s*---\s*$` at the start of `l` (a line-start position);
returns the number of characters consumed. -/

def hruleMatchAt (l : List Char) : Option Nat :=
  let w1 := (l.takeWhile isSpc).length
  let r1 := l.drop w1
  if startsWithL "---".data r1 then
    let k := w1 + 3
    let w2 := ((l.drop k).takeWhile isSpc).length
    backFindEol l k w2
  else none

/-- Largest `q` in `[k, k+c]` holding a literal newline, scanning downward
(the backtracking of a greedy `\s*` before a literal `\n`). -/

def backFindNl (l : List Char) (k : Nat) : Nat → Option Nat
  | 0 => if l.get? k = some '\n' then some k else none
  | c + 1 =>
    if l.get? (k + c + 1) = some '\n' then some (k + c + 1) else backFindNl l k c

/-- The scan of `re.sub(r'^\s*---\s*$', '', content, flags=re.MULTILINE)`:
walk the text tracking line starts, drop each match, resume after it. -/

def hruleSubGo (orig : List Char) : Nat → Bool → List Char → List Char
  | 0, _, l => l
  | _ + 1, _, [] => []
  | fuel + 1, atLS, x :: t =>
    if atLS then
      match hruleMatchAt (x :: t) with
      | some q =>
        if q = 0 then x :: hruleSubGo orig fuel (x = '\n') t
        else
          hruleSubGo orig fuel ((x :: t).get? (q - 1) = some '\n') ((x :: t).drop q)
      | none => x :: hruleSubGo orig fuel (x = '\n') t
    else x :: hruleSubGo orig fuel (x = '\n') t

/-- Remove every full-line horizontal rule. -/

def hruleSubL (l : List Char) : List Char := hruleSubGo l (l.length + 1) true l

/-- Match the split separator `\n\s*---\s*\n` at the start of `l`;
returns the number of characters consumed. -/

def sepMatchAt (l : List Char) : Option Nat :=
  match l with
  | '\n' :: t =>
    let w1 := (t.takeWhile isSpc).length
    let r1 := t.drop w1
    if startsWithL "---".data r1 then
      let k := 1 + w1 + 3
      let w2 := ((l.drop k).takeWhile isSpc).length
      match backFindNl l k w2 with
      | some q => some (q + 1)
      | none => none
    else none
  | _ => none

/-- `re.split(r'(\n\s*---\s*\n)', content)`: the segments and the captured
separators, in order. -/

def splitSepGo : Nat → List Char → List Char → List (List Char)
  | 0, acc, _ => [acc.reverse]
  | _ + 1, acc, [] => [acc.reverse]
  | fuel + 1, acc, x :: t =>
    match sepMatchAt (x :: t) with
    | some q => acc.reverse :: (x :: t).take q :: splitSepGo fuel [] ((x :: t).drop q)
    | none => splitSepGo fuel (x :: acc) t

/-- Split a text on horizontal-rule separators, keeping them. -/

def splitSepL (l : List Char) : List (List Char) := splitSepGo (l.length + 1) [] l

/-- The generic entry header
`\d{4}-\d{1,2}-\d{1,2}\s+[A-Za-z]+\s*\(\d+\.?\d*h\+?\):` matched at the
start of `l`. -/

def hdrAt (l : List Char) : Bool :=
  (do
    let (_, r1) ← take4Digs l
    let r2 ← expectC '-' r1
    let (_, r3) ← take12Then '-' r2
    let (_, r4) ← take12Before isSpc r3
    let (_, r5) ← takeWhile1 isSpc r4
    let (_, r6) ← takeWhile1 isAlp r5
    let r7 := r6.dropWhile isSpc
    let r8 ← expectC '(' r7
    let (_, r9) ← takeWhile1 isDig r8
    let (_, r10) := optC '.' r9
    let r11 := r10.dropWhile isDig
    let r12 ← expectC 'h' r11
    let (_, r13) := optC '+' r12
    let r14 ← expectC ')' r13
    let _ ← expectC ':' r14
    pure ()).isSome

/-- Length of the current line (up to the next newline). -/

def lineTakeLen (l : List Char) : Nat := (l.takeWhile (fun c => ¬ c = '\n')).length

/-- Extend a matched entry over its continuation lines
(`(?:\n(?!HDR)[^\n]*)*`). -/

def entryLenGo (l : List Char) : Nat → Nat → Nat
  | 0, e => e
  | fuel + 1, e =>
    if l.get? e = some '\n' && ¬ hdrAt (l.drop (e + 1)) then
      entryLenGo l fuel (e + 1 + lineTakeLen (l.drop (e + 1)))
    else e

/-- Length of the full entry match starting at `l`. -/

def entryLen (l : List Char) : Nat := entryLenGo l (l.length + 1) (lineTakeLen l)

/-- The `re.finditer` scan for individual entries inside one part; each
match is appended stripped. -/

def extractGo : Nat → Bool → List Char → List String
  | 0, _, _ => []
  | _ + 1, _, [] => []
  | fuel + 1, atLS, x :: t =>
    if atLS && hdrAt (x :: t) then
      let e := entryLen (x :: t)
      let entry : String := ⟨pyStripL ((x :: t).take e)⟩
      if e = 0 then extractGo fuel (x = '\n') t
      else entry :: extractGo fuel ((x :: t).get? (e - 1) = some '\n') ((x :: t).drop e)
    else extractGo fuel (x = '\n') t

/-- All entries of one part, in order. -/

def extractEntries (part : List Char) : List String :=
  extractGo (part.length + 1) true part

/-- Lines 189-209: nothing is collected from an all-whitespace text; the
split parts are scanned, separators becoming `"---"` placeholders. -/

def collectEntries (contentToParse : List Char) : List String :=
  if pyStripL contentToParse = [] then []
  else
    (splitSepL contentToParse).foldl (fun acc part =>
      if (sepMatchAt part).isSome then
        if acc ≠ [] ∧ acc.getLast? ≠ some "---" then acc ++ ["---"] else acc
      else acc ++ extractEntries part) []

/-! ## Sort key and reconstruction (`sync.py` lines 211-281) -/

/-- Microseconds per day: the scale of the `datetime` encoding. -/

def USEC : Nat := 86400000000

/-- Encoding of `datetime.min` (`0001-01-01 00:00`, ordinal 1). -/

def KMIN : Nat := USEC

/-- Encoding of `datetime.max` (`9999-12-31 23:59:59.999999`). -/

def KMAX : Nat := 3652059 * USEC + 86399999999

/-- Match `\d{1,2}` greedily with no follower constraint. -/

def take12Free : List Char → Option (List Char × List Char)
  | [] => none
  | [a] => if isDig a then some ([a], []) else none
  | a :: b :: rest =>
    if isDig a then
      if isDig b then some ([a, b], rest) else some ([a], b :: rest)
    else none

/-- The leading-date parse of `get_entry_date_from_string`: the regex
prefix `(\d{4}-\d{1,2}-\d{1,2})` followed by `strptime("%Y-%m-%d")`,
which validates the calendar date. -/

def parseLeadDate (l : List Char) : Option (Nat × Nat × Nat) := do
  let (y4, r1) ← take4Digs l
  let r2 ← expectC '-' r1
  let (md, r3) ← take12Then '-' r2
  let (dd, _) ← take12Free r3
  let y := charsVal y4
  let m := charsVal md
  let d := charsVal dd
  if isValidDate y m d then some (y, m, d) else none

/-- `get_entry_date_from_string`, valued in the `datetime` encoding:
separators sort to `datetime.max`, unparseable entries to `datetime.min`. -/

def entryKey (s : String) : Nat :=
  if s = "---" then KMAX
  else
    match parseLeadDate s.data with
    | some (y, m, d) => toOrd y m d * USEC
    | none => KMIN

/-- Stable descending insertion by key: the element goes after every
earlier element of greater-or-equal key. -/

def insDesc (acc : List String) (x : String) : List String :=
  match acc with
  | [] => [x]
  | y :: ys => if entryKey x ≤ entryKey y then y :: insDesc ys x else x :: y :: ys

/-- `parsed_log_entries.sort(key=get_entry_date_from_string, reverse=True)`:
CPython's sort is stable, so this is the unique stable descending order. -/

def pySortDesc (l : List String) : List String := l.foldl insDesc []

/-- Monday ordinal of the date a key encodes. -/

def mondayOrd (k : Nat) : Nat :=
  let o := k / USEC
  o - (o + 6) % 7

/-- The separator chosen between a rendered entry and its predecessor
(`sync.py` lines 246-261). -/

def sepFor (prev cur : String) : List Char :=
  if entryKey prev ≠ KMIN ∧ entryKey cur ≠ KMIN ∧ entryKey prev ≠ KMAX ∧
      mondayOrd (entryKey prev) ≠ mondayOrd (entryKey cur) then
    "\n\n---\n\n".data
  else "\n\n".data

/-- The reconstruction loop: `"---"` placeholders are skipped, the first
real entry gets no separator, later ones the separator against the last
real entry before them. -/

def reconGo (prev : Option String) : List String → List (List Char)
  | [] => []
  | e :: rest =>
    if e = "---" then reconGo prev rest
    else
      match prev with
      | none => e.data :: reconGo (some e) rest
      | some p => sepFor p e :: e.data :: reconGo (some e) rest

/-- `final_content_parts` of the reconstruction. -/

def reconstructParts (l : List String) : List (List Char) := reconGo none l

/-- Join the parts (`"".join`). -/

def joinAll (ps : List (List Char)) : List Char := ps.foldr (· ++ ·) []

/-- The whole re-normalization pass on a document. -/

def renormalizeL (l : List Char) : List Char :=
  let tp := stripTitle l
  let rest := hruleSubL (lstripNlL tp.2)
  let sorted := pySortDesc (collectEntries rest)
  let entriesSec := joinAll (reconstructParts sorted)
  if tp.1 ≠ [] then
    let titleBase := rstripNlL tp.1
    if entriesSec ≠ [] then titleBase ++ '\n' :: '\n' :: entriesSec ++ ['\n']
    else titleBase ++ ['\n']
  else
    if entriesSec ≠ [] then entriesSec ++ ['\n'] else ['\n']

/-- `renormalizeL` on `String`. -/

def renormalize (s : String) : String := ⟨renormalizeL s.data⟩

/-- The reconciliation core on one fetched document: splice each processed
day, skip the write when nothing changed, otherwise re-render and write.
The boolean records whether `update_worklog` is called. -/

def syncToGithub (now : ℚ) (content : String) (days : List Day) : String × Bool :=
  let spliced := applyDays now content days
  if spliced = content then (content, false)
  else (renormalize spliced, true)

/-! ## Failure semantics of `sync_toggl_to_github`

The function body sits in one `try`; the boundary calls that can raise are
the document read, the Toggl fetches, and the final write.  An environment
records what each boundary call would do; an exception anywhere lands in
the `except` arm: log, optional mail, `return False`. -/

/-- The three notification settings; Python truthiness (absent or empty is
falsy). -/

structure NotifyConfig where
  sendgridApiKey : Option String
  notificationEmailFrom : Option String
  notificationEmailTo : Option String

/-- The `if` guard of `sync.py` lines 294-298. -/

def notifyConfigured (c : NotifyConfig) : Bool :=
  c.sendgridApiKey.getD "" ≠ "" && c.notificationEmailFrom.getD "" ≠ "" &&
    c.notificationEmailTo.getD "" ≠ ""

/-- Outcomes of the boundary calls of one run. -/

structure SyncEnv where
  fetchContent : Except String (String × String)
  fetchDays : Except String (List Day)
  now : ℚ
  writeResult : Except String Unit

/-- What a run did: its return value, the content of the successful write
if one happened, and whether the error mail was sent. -/

structure SyncOutcome where
  returned : Bool
  written : Option String
  notified : Bool
deriving DecidableEq

/-- `send_error_notification` wraps its own body in `try`/`except` and only
logs a failure of the mail transport: nothing escapes, nothing is returned. -/

def sendErrorNotification (_transport : Except String Unit) : Unit := ()

/-- `sync_toggl_to_github` over an environment: the `try` body either
completes (skip or write) or raises at a boundary call; the `except` arm
returns `False` after the optional notification. -/

def syncFull (cfg : NotifyConfig) (env : SyncEnv) (transport : Except String Unit) :
    SyncOutcome :=
  let body : Except String (Bool × Option String) := do
    let cs ← env.fetchContent
    let days ← env.fetchDays
    let spliced := applyDays env.now cs.1 days
    if spliced = cs.1 then pure (true, none)
    else do
      let _ ← env.writeResult
      pure (true, some (renormalize spliced))
  match body with
  | .ok bw => ⟨bw.1, bw.2, false⟩
  | .error _ =>
    let _ := sendErrorNotification transport
    ⟨false, none, notifyConfigured cfg⟩

/-! ## Lemmas about the stable descending sort of the re-normalization pass -/

/-- The descending order relation the reconciler sorts by. -/

def keyGE (a b : String) : Prop := entryKey b ≤ entryKey a

/-! ## Lemmas about the reconstruction loop -/

/-- The sequential rendering the specification describes: each entry after
the first is preceded by the separator chosen against its predecessor. -/

def weekJoin : List String → List Char
  | [] => []
  | [e] => e.data
  | a :: b :: t => a.data ++ (sepFor a b ++ weekJoin (b :: t))

/-! ## Concrete instances used as evidence -/

/-- Two 50-character descriptions with 43 common characters:
similarity ratio `2*43/100 = 0.86`. -/

def simDescA : String := "abcdefghijklmnopqrstuvwxyzABCDEFGHIJKLMNOPQ0123456"

/-- Partner of `simDescA`. -/

def simDescB : String := "abcdefghijklmnopqrstuvwxyzABCDEFGHIJKLMNOPQ789!=+*"

/-- Two 50-character descriptions with 40 common characters:
similarity ratio `2*40/100 = 0.80`. -/

def simDescC : String := "abcdefghijklmnopqrstuvwxyzABCDEFGHIJKLMN0123456789"

/-- Partner of `simDescC`. -/

def simDescD : String := "abcdefghijklmnopqrstuvwxyzABCDEFGHIJKLMN!=+*<>?;:,"

/-- A completed two-hour entry described `Foo`. -/

def fooEntry : TimeEntry := ⟨some 7200, 0, some "Foo"⟩

/-- The day 2025-04-09 holding `fooEntry`, no running timer. -/

def day49 : Day := ⟨2025, 4, 9, [fooEntry], false⟩

/-- The day 2025-04-09 with no tracked entries. -/

def zeroDay : Day := ⟨2025, 4, 9, [], false⟩

/-- An environment whose document read raises. -/

def envFetchFail : SyncEnv := ⟨.error "boom", .ok [], 0, .ok ()⟩

/-- A fully configured notification target. -/

def cfgFull : NotifyConfig := ⟨some "key", some "from@x", some "to@x"⟩

/-! ## Lemmas -/

theorem digVal_digChr {d : Nat} (h : d < 10) : digVal (digChr d) = d := by
  interval_cases d <;> decide

theorem isDig_digChr {d : Nat} (h : d < 10) : isDig (digChr d) = true := by
  interval_cases d <;> decide

theorem not_isSpc_digChr {d : Nat} (h : d < 10) : isSpc (digChr d) = false := by
  interval_cases d <;> decide

theorem digChr_ne_dash {d : Nat} (h : d < 10) : digChr d ≠ '-' := by
  interval_cases d <;> decide

theorem digChr_ne_dot {d : Nat} (h : d < 10) : digChr d ≠ '.' := by
  interval_cases d <;> decide

theorem digChr_ne_nl {d : Nat} (h : d < 10) : digChr d ≠ '\n' := by
  interval_cases d <;> decide

theorem digsLE_fuel {f g n : Nat} (hf : n ≤ f) (hg : n ≤ g) :
    digsLE f n = digsLE g n := by
  induction f generalizing g n with
  | zero =>
    cases n with
    | zero => cases g <;> rfl
    | succ n => omega
  | succ f ih =>
    cases n with
    | zero => cases g <;> rfl
    | succ n =>
      cases g with
      | zero => omega
      | succ g =>
        show (n + 1) % 10 :: digsLE f ((n + 1) / 10) = (n + 1) % 10 :: digsLE g ((n + 1) / 10)
        have hd : (n + 1) / 10 < n + 1 := Nat.div_lt_self (by omega) (by omega)
        exact congrArg (fun l => (n + 1) % 10 :: l) (ih (by omega) (by omega))

theorem natDigsLE_zero : natDigsLE 0 = [] := rfl

theorem natDigsLE_pos {n : Nat} (h : 0 < n) :
    natDigsLE n = n % 10 :: natDigsLE (n / 10) := by
  obtain ⟨m, rfl⟩ : ∃ m, n = m + 1 := ⟨n - 1, by omega⟩
  show digsLE (m + 1) (m + 1) = (m + 1) % 10 :: digsLE ((m + 1) / 10) ((m + 1) / 10)
  show (m + 1) % 10 :: digsLE m ((m + 1) / 10) = _
  have h1 : (m + 1) / 10 ≤ m := by
    have := Nat.div_lt_self (show 0 < m + 1 by omega) (show 1 < 10 by omega)
    omega
  exact congrArg (fun l => (m + 1) % 10 :: l) (digsLE_fuel h1 (Nat.le_refl _))

theorem mem_natDigsLE_lt {n d : Nat} (h : d ∈ natDigsLE n) : d < 10 := by
  induction n using Nat.strong_induction_on with
  | _ n ih =>
    cases Nat.eq_zero_or_pos n with
    | inl h0 => rw [h0, natDigsLE_zero] at h; cases h
    | inr hp =>
      rw [natDigsLE_pos hp] at h
      cases h with
      | head => exact Nat.mod_lt _ (by omega)
      | tail _ h => exact ih (n / 10) (Nat.div_lt_self hp (by omega)) h

theorem valLE_natDigsLE (n : Nat) : valLE (natDigsLE n) = n := by
  induction n using Nat.strong_induction_on with
  | _ n ih =>
    cases Nat.eq_zero_or_pos n with
    | inl h0 => rw [h0]; rfl
    | inr hp =>
      rw [natDigsLE_pos hp]
      show n % 10 + 10 * valLE (natDigsLE (n / 10)) = n
      rw [ih (n / 10) (Nat.div_lt_self hp (by omega))]
      omega

theorem natDigsLE_len_le {k n : Nat} (h : n < 10 ^ k) : (natDigsLE n).length ≤ k := by
  induction k generalizing n with
  | zero =>
    have : n = 0 := by simpa using h
    rw [this, natDigsLE_zero]; exact Nat.le_refl _
  | succ k ih =>
    cases Nat.eq_zero_or_pos n with
    | inl h0 => rw [h0, natDigsLE_zero]; exact Nat.zero_le _
    | inr hp =>
      rw [natDigsLE_pos hp]
      have : n / 10 < 10 ^ k := by
        rw [Nat.div_lt_iff_lt_mul (by omega)]
        calc n < 10 ^ (k + 1) := h
        _ = 10 ^ k * 10 := by ring
      simpa using ih this

theorem natDigsLE_len_ge {k n : Nat} (h : 10 ^ k ≤ n) : k + 1 ≤ (natDigsLE n).length := by
  induction k generalizing n with
  | zero =>
    have hp : 0 < n := by simpa using h
    rw [natDigsLE_pos hp]
    simp
  | succ k ih =>
    have hp : 0 < n := by
      have : 0 < 10 ^ (k + 1) := Nat.pos_pow_of_pos _ (by omega)
      omega
    rw [natDigsLE_pos hp]
    have : 10 ^ k ≤ n / 10 := by
      rw [Nat.le_div_iff_mul_le (by omega)]
      calc 10 ^ k * 10 = 10 ^ (k + 1) := by ring
      _ ≤ n := h
    simpa using ih this

theorem natChars_all_dig {n : Nat} : ∀ c ∈ natChars n, isDig c = true := by
  intro c hc
  unfold natChars at hc
  by_cases h0 : n = 0
  · rw [h0] at hc; simp at hc; rw [hc]; decide
  · rw [if_neg h0] at hc
    simp only [List.mem_map, List.mem_reverse] at hc
    obtain ⟨d, hd, rfl⟩ := hc
    exact isDig_digChr (mem_natDigsLE_lt hd)

theorem charsVal_append_digs (l : List Char) (a : Nat) :
    l.foldl (fun acc c => 10 * acc + digVal c) a =
      a * 10 ^ l.length + charsVal l := by
  induction l generalizing a with
  | nil => simp [charsVal]
  | cons c t ih =>
    show List.foldl _ (10 * a + digVal c) t = _
    rw [ih (10 * a + digVal c)]
    show _ = a * 10 ^ (t.length + 1) + List.foldl _ (10 * 0 + digVal c) t
    rw [ih (10 * 0 + digVal c)]
    ring

theorem charsVal_natChars (n : Nat) : charsVal (natChars n) = n := by
  unfold natChars
  by_cases h0 : n = 0
  · rw [h0]; rfl
  · rw [if_neg h0]
    have key : ∀ l : List Nat, (∀ d ∈ l, d < 10) →
        charsVal (l.reverse.map digChr) = valLE l := by
      intro l
      induction l with
      | nil => intro _; rfl
      | cons d t ih =>
        intro hall
        rw [List.reverse_cons, List.map_append]
        unfold charsVal
        rw [List.foldl_append]
        show 10 * List.foldl (fun acc c => 10 * acc + digVal c) 0 (t.reverse.map digChr) +
          digVal (digChr d) = _
        rw [show List.foldl (fun acc c => 10 * acc + digVal c) 0 (t.reverse.map digChr) =
            charsVal (t.reverse.map digChr) from rfl]
        rw [ih (fun x hx => hall x (List.mem_cons_of_mem _ hx)),
          digVal_digChr (hall d (List.mem_cons_self _ _))]
        show _ = d + 10 * valLE t
        ring
    rw [key _ (fun d hd => mem_natDigsLE_lt hd), valLE_natDigsLE]

theorem natChars_len_four {n : Nat} (h1 : 1000 ≤ n) (h2 : n ≤ 9999) :
    (natChars n).length = 4 := by
  unfold natChars
  rw [if_neg (by omega)]
  simp only [List.length_map, List.length_reverse]
  have hle : (natDigsLE n).length ≤ 4 := natDigsLE_len_le (by omega)
  have hge : 4 ≤ (natDigsLE n).length := natDigsLE_len_ge (k := 3) (by omega)
  omega

theorem natChars_len_one {n : Nat} (h2 : n ≤ 9) : (natChars n).length = 1 := by
  unfold natChars
  by_cases h0 : n = 0
  · rw [h0]; rfl
  · rw [if_neg h0]
    simp only [List.length_map, List.length_reverse]
    have hle : (natDigsLE n).length ≤ 1 := natDigsLE_len_le (by omega)
    have hge : 1 ≤ (natDigsLE n).length := natDigsLE_len_ge (k := 0) (by omega)
    omega

theorem natChars_len_two {n : Nat} (h1 : 10 ≤ n) (h2 : n ≤ 99) :
    (natChars n).length = 2 := by
  unfold natChars
  rw [if_neg (by omega)]
  simp only [List.length_map, List.length_reverse]
  have hle : (natDigsLE n).length ≤ 2 := natDigsLE_len_le (by omega)
  have hge : 2 ≤ (natDigsLE n).length := natDigsLE_len_ge (k := 1) (by omega)
  omega

/-! ## General lemmas about the string helpers -/

theorem takeWhile_append_cons {p : Char → Bool} {l1 : List Char} (c : Char) (t : List Char)
    (h1 : ∀ x ∈ l1, p x = true) (hc : p c = false) :
    (l1 ++ c :: t).takeWhile p = l1 ∧ (l1 ++ c :: t).dropWhile p = c :: t := by
  induction l1 with
  | nil => simp [List.takeWhile, List.dropWhile, hc]
  | cons a l ih =>
    have ha : p a = true := h1 a (List.mem_cons_self _ _)
    have ih2 := ih (fun x hx => h1 x (List.mem_cons_of_mem _ hx))
    simp only [List.cons_append, List.takeWhile, List.dropWhile, ha, List.append_eq]
    exact ⟨by rw [ih2.1], by rw [ih2.2]⟩

theorem takeWhile_all {p : Char → Bool} {l : List Char} (h : ∀ x ∈ l, p x = true) :
    l.takeWhile p = l := by
  induction l with
  | nil => rfl
  | cons a t ih =>
    simp only [List.takeWhile, h a (List.mem_cons_self _ _)]
    rw [ih (fun x hx => h x (List.mem_cons_of_mem _ hx))]

theorem takeWhile1_spec {p : Char → Bool} {l1 : List Char} (c : Char) (t : List Char)
    (h1 : ∀ x ∈ l1, p x = true) (hne : l1 ≠ []) (hc : p c = false) :
    takeWhile1 p (l1 ++ c :: t) = some (l1, c :: t) := by
  have h := takeWhile_append_cons c t h1 hc
  unfold takeWhile1
  rw [h.1, h.2]
  cases l1 with
  | nil => exact absurd rfl hne
  | cons a l => rfl

theorem expectC_cons (c : Char) (t : List Char) : expectC c (c :: t) = some t := by
  simp [expectC]

theorem optC_hit (c : Char) (t : List Char) : optC c (c :: t) = (true, t) := by
  simp [optC]

theorem optC_miss {c x : Char} (t : List Char) (h : x ≠ c) :
    optC c (x :: t) = (false, x :: t) := by
  simp [optC, h]

theorem list_len4 {l : List Char} (h : l.length = 4) :
    ∃ a b c d, l = [a, b, c, d] := by
  match l, h with
  | [a, b, c, d], _ => exact ⟨a, b, c, d, rfl⟩

theorem take4Digs_spec {l1 : List Char} (rest : List Char)
    (h1 : ∀ x ∈ l1, isDig x = true) (hlen : l1.length = 4) :
    take4Digs (l1 ++ rest) = some (l1, rest) := by
  obtain ⟨a, b, c, d, rfl⟩ := list_len4 hlen
  have ha := h1 a (by simp)
  have hb := h1 b (by simp)
  have hc := h1 c (by simp)
  have hd := h1 d (by simp)
  simp [take4Digs, ha, hb, hc, hd]

theorem isDig_ne_char {x c : Char} (hx : isDig x = true) (hc : isDig c = false) : x ≠ c := by
  intro h
  rw [h, hc] at hx
  cases hx

theorem take12Then_spec {dd : List Char} (c : Char) (rest : List Char)
    (h1 : ∀ x ∈ dd, isDig x = true) (hlen : dd.length = 1 ∨ dd.length = 2)
    (hc : isDig c = false) :
    take12Then c (dd ++ c :: rest) = some (dd, rest) := by
  cases hlen with
  | inl h1len =>
    match dd, h1len with
    | [a], _ =>
      have ha := h1 a (by simp)
      simp [take12Then, ha, hc]
  | inr h2len =>
    match dd, h2len with
    | [a, b], _ =>
      have ha := h1 a (by simp)
      have hb := h1 b (by simp)
      simp [take12Then, ha, hb]

theorem digs_len12 {n : Nat} (h1 : 1 ≤ n) (h2 : n ≤ 99) :
    (natChars n).length = 1 ∨ (natChars n).length = 2 := by
  by_cases h : n ≤ 9
  · exact Or.inl (natChars_len_one h)
  · exact Or.inr (natChars_len_two (by omega) h2)

theorem splitOnCharL_of_not_mem {c : Char} {l : List Char} (h : c ∉ l) :
    splitOnCharL c l = [l] := by
  induction l with
  | nil => rfl
  | cons x t ih =>
    have hx : x ≠ c := fun hh => h (hh ▸ List.mem_cons_self _ _)
    have ht : c ∉ t := fun hh => h (List.mem_cons_of_mem _ hh)
    simp only [splitOnCharL, if_neg hx]
    rw [ih ht]

theorem splitOnCharL_append {c : Char} {l : List Char} (t : List Char) (h : c ∉ l) :
    splitOnCharL c (l ++ c :: t) = l :: splitOnCharL c t := by
  induction l with
  | nil => simp [splitOnCharL]
  | cons x xs ih =>
    have hx : x ≠ c := fun hh => h (hh ▸ List.mem_cons_self _ _)
    have hxs : c ∉ xs := fun hh => h (List.mem_cons_of_mem _ hh)
    simp only [List.cons_append, splitOnCharL, if_neg hx, List.append_eq]
    rw [ih hxs]

theorem not_mem_of_all_dig {l : List Char} {c : Char} (h : ∀ x ∈ l, isDig x = true)
    (hc : isDig c = false) : c ∉ l := by
  intro hmem
  have := h c hmem
  rw [hc] at this
  cases this

theorem pyStripL_cons_space (l : List Char) : pyStripL (' ' :: l) = pyStripL l := by
  simp [pyStripL, List.dropWhile, isSpc]

theorem take3Alpha_dayAbbr {w : Nat} (hw : w < 7) (rest : List Char) :
    take3Alpha ((dayAbbr w).data ++ rest) = some ((dayAbbr w).data, rest) := by
  interval_cases w <;> simp [dayAbbr, take3Alpha, isAlp]

theorem pyWeekday_lt (y m d : Nat) : pyWeekday y m d < 7 := Nat.mod_lt _ (by omega)

theorem joinWithL_last_props :
    ∀ (ds : List String) (d : String), (∀ s ∈ d :: ds, s.data ≠ [] ∧ '.' ∉ s.data) →
      joinWithL ['.', ' '] ((d :: ds).map String.data) ≠ [] ∧
        ¬ (joinWithL ['.', ' '] ((d :: ds).map String.data)).getLast? = some '.' := by
  intro ds
  induction ds with
  | nil =>
    intro d h
    have hd := h d (List.mem_cons_self _ _)
    refine ⟨hd.1, fun hlast => hd.2 (List.mem_of_mem_getLast? ?_)⟩
    exact Option.mem_def.mpr hlast
  | cons d2 t ih =>
    intro d h
    have hih := ih d2 (fun s hs => h s (List.mem_cons_of_mem _ hs))
    have hstep : joinWithL ['.', ' '] ((d :: d2 :: t).map String.data) =
        d.data ++ '.' :: ' ' :: joinWithL ['.', ' '] ((d2 :: t).map String.data) := by
      show (d.data ++ ['.', ' ']) ++ joinWithL ['.', ' '] ((d2 :: t).map String.data) = _
      rw [List.append_assoc]
      rfl
    rw [hstep]
    constructor
    · simp
    · have h2 : ('.' :: ' ' :: joinWithL ['.', ' '] ((d2 :: t).map String.data)) =
          ['.', ' '] ++ joinWithL ['.', ' '] ((d2 :: t).map String.data) := rfl
      rw [show (d.data ++ '.' :: ' ' :: joinWithL ['.', ' '] ((d2 :: t).map String.data)) =
          (d.data ++ ['.', ' ']) ++ joinWithL ['.', ' '] ((d2 :: t).map String.data) by simp]
      rw [List.getLast?_append_of_ne_nil _ hih.1]
      exact hih.2

theorem mem_joinWithL {sep : List Char} {c : Char} :
    ∀ {ds : List (List Char)}, c ∈ joinWithL sep ds → c ∈ sep ∨ ∃ l ∈ ds, c ∈ l := by
  intro ds
  induction ds with
  | nil => intro h; cases h
  | cons x t ih =>
    intro h
    cases t with
    | nil =>
      exact Or.inr ⟨x, List.mem_cons_self _ _, h⟩
    | cons y u =>
      have hstep : joinWithL sep (x :: y :: u) = x ++ sep ++ joinWithL sep (y :: u) := rfl
      rw [hstep, List.mem_append, List.mem_append] at h
      rcases h with (h | h) | h
      · exact Or.inr ⟨x, List.mem_cons_self _ _, h⟩
      · exact Or.inl h
      · rcases ih h with h | ⟨l, hl, hcl⟩
        · exact Or.inl h
        · exact Or.inr ⟨l, List.mem_cons_of_mem _ hl, hcl⟩

theorem joinDescs_no_nl {descs : List String}
    (h : ∀ s ∈ descs, '\n' ∉ s.data) : '\n' ∉ joinDescs descs := by
  intro hmem
  unfold joinDescs at hmem
  have hbase : '\n' ∉ joinWithL ['.', ' '] (descs.map String.data) := by
    intro hb
    rcases mem_joinWithL hb with hs | ⟨l, hl, hcl⟩
    · simp at hs
    · rw [List.mem_map] at hl
      obtain ⟨s, hsmem, rfl⟩ := hl
      exact h s hsmem hcl
  by_cases hc : joinWithL ['.', ' '] (descs.map String.data) ≠ [] ∧
      ¬ (joinWithL ['.', ' '] (descs.map String.data)).getLast? = some '.'
  · rw [if_pos hc] at hmem
    rw [List.mem_append] at hmem
    rcases hmem with hmem | hmem
    · exact hbase hmem
    · simp at hmem
  · rw [if_neg hc] at hmem
    exact hbase hmem

theorem splitJoin : ∀ (ds : List String) (d : String),
    (∀ s ∈ d :: ds, s.data ≠ [] ∧ '.' ∉ s.data) →
    splitOnCharL '.' (joinWithL ['.', ' '] ((d :: ds).map String.data) ++ ['.']) =
      d.data :: (ds.map (fun s => ' ' :: s.data) ++ [[]]) := by
  intro ds
  induction ds with
  | nil =>
    intro d h
    have hd := h d (List.mem_cons_self _ _)
    show splitOnCharL '.' (d.data ++ '.' :: []) = d.data :: [[]]
    rw [splitOnCharL_append [] hd.2]
    rfl
  | cons d2 t ih =>
    intro d h
    have hd := h d (List.mem_cons_self _ _)
    have hih := ih d2 (fun s hs => h s (List.mem_cons_of_mem _ hs))
    have hstep : joinWithL ['.', ' '] ((d :: d2 :: t).map String.data) =
        d.data ++ '.' :: ' ' :: joinWithL ['.', ' '] ((d2 :: t).map String.data) := by
      show (d.data ++ ['.', ' ']) ++ joinWithL ['.', ' '] ((d2 :: t).map String.data) = _
      rw [List.append_assoc]
      rfl
    rw [hstep]
    rw [show (d.data ++ '.' :: ' ' :: joinWithL ['.', ' '] ((d2 :: t).map String.data)) ++ ['.'] =
      d.data ++ '.' :: (' ' :: (joinWithL ['.', ' '] ((d2 :: t).map String.data) ++ ['.'])) by
        simp]
    rw [splitOnCharL_append _ hd.2]
    have hsp : splitOnCharL '.' (' ' :: (joinWithL ['.', ' '] ((d2 :: t).map String.data) ++ ['.'])) =
        (' ' :: d2.data) :: (t.map (fun s => ' ' :: s.data) ++ [[]]) := by
      show (if (' ' : Char) = '.' then _ else _) = _
      rw [if_neg (by decide : (' ' : Char) ≠ '.')]
      rw [hih]
    rw [hsp]
    rfl

theorem descsParse (descs : List String)
    (h : ∀ s ∈ descs, s.data ≠ [] ∧ pyStripL s.data = s.data ∧ '.' ∉ s.data) :
    ((((splitOnCharL '.' (joinDescs descs)).map pyStripL).filter (fun p => ¬ p = [])).map
      (fun p => (⟨p⟩ : String))) = descs := by
  cases descs with
  | nil => rfl
  | cons d ds =>
    have hprops := joinWithL_last_props ds d (fun s hs => ⟨(h s hs).1, (h s hs).2.2⟩)
    have hjd : joinDescs (d :: ds) =
        joinWithL ['.', ' '] ((d :: ds).map String.data) ++ ['.'] := by
      unfold joinDescs
      rw [if_pos ⟨hprops.1, hprops.2⟩]
    rw [hjd, splitJoin ds d (fun s hs => ⟨(h s hs).1, (h s hs).2.2⟩)]
    have hd := h d (List.mem_cons_self _ _)
    have htail : ∀ (t : List String), (∀ s ∈ t, s.data ≠ [] ∧ pyStripL s.data = s.data) →
        ((((t.map (fun s => ' ' :: s.data)).map pyStripL).filter (fun p => ¬ p = [])).map
          (fun p => (⟨p⟩ : String))) = t := by
      intro t
      induction t with
      | nil => intro _; rfl
      | cons s u ih =>
        intro ht
        have hs := ht s (List.mem_cons_self _ _)
        simp only [List.map_cons]
        rw [pyStripL_cons_space, hs.2,
          List.filter_cons_of_pos (by simp [hs.1]),
          List.map_cons,
          ih (fun x hx => ht x (List.mem_cons_of_mem _ hx))]
    rw [List.map_cons, hd.2.1,
      List.filter_cons_of_pos (by simp [hd.1]),
      List.map_cons,
      List.map_append, List.filter_append, List.map_append,
      htail ds (fun s hs =>
        ⟨(h s (List.mem_cons_of_mem _ hs)).1, (h s (List.mem_cons_of_mem _ hs)).2.1⟩)]
    have hnil : (((([] : List Char) :: []).map pyStripL).filter (fun p => ¬ p = [])).map
        (fun p => (⟨p⟩ : String)) = [] := rfl
    rw [hnil, List.append_nil]

theorem takeWhile_ne_nl {l : List Char} (h : '\n' ∉ l) :
    l.takeWhile (fun c => ¬ c = '\n') = l := by
  apply takeWhile_all
  intro x hx
  simp only [decide_not, Bool.not_eq_true']
  exact decide_eq_false (fun he => h (he ▸ hx))

theorem natChars_nonnil (n : Nat) : natChars n ≠ [] := by
  unfold natChars
  by_cases h : n = 0
  · rw [h]; simp
  · rw [if_neg h]
    have : 1 ≤ (natDigsLE n).length := natDigsLE_len_ge (k := 0) (by omega)
    intro he
    rw [List.map_eq_nil_iff, List.reverse_eq_nil_iff] at he
    rw [he] at this
    simp at this

theorem charsVal_single_digit {d : Nat} (h : d < 10) : charsVal [digChr d] = d := by
  show 10 * 0 + digVal (digChr d) = d
  rw [digVal_digChr h]
  omega

theorem reprDecNN_natCast (m : Nat) : reprDecNN (m : ℚ) = natChars m ++ ['.', '0'] := by
  have hden : ((m : ℚ)).den = 1 := Rat.den_natCast m
  have hnum : ((m : ℚ)).num = (m : ℤ) := Rat.num_natCast m
  unfold reprDecNN
  rw [hden]
  have hk : minPow10 1 = 0 := by decide
  rw [hk, if_pos rfl, hnum, Int.toNat_natCast]

theorem rat_div10_den_dvd (n : Nat) : (((n : ℚ)) / 10).den ∣ 10 := by
  have h1 : ((n : ℚ)) / 10 = Rat.divInt (n : ℤ) 10 := by
    rw [Rat.divInt_eq_div]
    norm_num
  rw [h1]
  have h2 := Rat.den_dvd (n : ℤ) 10
  have h3 : ((Rat.divInt (n : ℤ) 10).den : ℤ) ∣ ((10 : ℕ) : ℤ) := by exact_mod_cast h2
  exact_mod_cast h3

theorem reprDecNN_div10 {n : Nat} (hnd : ¬ (10 ∣ n)) :
    reprDecNN ((n : ℚ) / 10) = natChars (n / 10) ++ '.' :: [digChr (n % 10)] := by
  have hdvd := rat_div10_den_dvd n
  have hne1 : (((n : ℚ)) / 10).den ≠ 1 := by
    intro h1
    have hnum := Rat.num_div_den (((n : ℚ)) / 10)
    rw [h1] at hnum
    simp only [Nat.cast_one, div_one] at hnum
    have h10 : ((((n : ℚ)) / 10).num : ℚ) * 10 = (n : ℚ) := by
      rw [hnum]; field_simp
    have hz : (((n : ℚ)) / 10).num * 10 = (n : ℤ) := by exact_mod_cast h10
    have hpos : 0 ≤ (((n : ℚ)) / 10).num := by
      apply Rat.num_nonneg.mpr
      positivity
    apply hnd
    refine ⟨(((n : ℚ)) / 10).num.toNat, ?_⟩
    have : ((((n : ℚ)) / 10).num.toNat : ℤ) = (((n : ℚ)) / 10).num := Int.toNat_of_nonneg hpos
    omega
  have hk : minPow10 (((n : ℚ)) / 10).den = 1 := by
    have hle : (((n : ℚ)) / 10).den ≤ 10 := Nat.le_of_dvd (by norm_num) hdvd
    have hpos : 0 < (((n : ℚ)) / 10).den := (((n : ℚ)) / 10).den_pos
    set dq := (((n : ℚ)) / 10).den with hdq
    interval_cases dq <;> revert hdvd hne1 <;> decide
  have hmul : ((n : ℚ)) / 10 * (10 : ℚ) ^ minPow10 (((n : ℚ)) / 10).den = (n : ℚ) := by
    rw [hk]; field_simp
  unfold reprDecNN
  rw [hk, if_neg (by omega : ¬ (1 : Nat) = 0)]
  rw [show (((n : ℚ)) / 10 * (10 : ℚ) ^ 1) = ((n : ℚ)) by rw [hk] at hmul; exact hmul]
  have hnum : ((n : ℚ)).num = (n : ℤ) := Rat.num_natCast n
  rw [hnum, Int.toNat_natCast]
  have hfix : fixDigs 1 (n % 10 ^ 1) = [digChr (n % 10)] := by
    show fixDigs 0 (n % 10 ^ 1 / 10) ++ [digChr (n % 10 ^ 1 % 10)] = [digChr (n % 10)]
    have h1 : n % 10 ^ 1 = n % 10 := by norm_num
    rw [h1]
    show [digChr (n % 10 % 10)] = [digChr (n % 10)]
    rw [Nat.mod_mod_of_dvd _ (by norm_num)]
  rw [hfix]
  have h2 : n / 10 ^ 1 = n / 10 := by norm_num
  rw [h2]

theorem pyFloatRepr_tenths (n : Nat) :
    ∃ ip fp, pyFloatRepr ((n : ℚ) / 10) = ip ++ '.' :: fp ∧
      ip ≠ [] ∧ (∀ c ∈ ip, isDig c = true) ∧ fp ≠ [] ∧ (∀ c ∈ fp, isDig c = true) ∧
      hoursVal ip fp = (n : ℚ) / 10 := by
  have hnonneg : ¬ ((n : ℚ) / 10 < 0) := not_lt.mpr (by positivity)
  by_cases hd : 10 ∣ n
  · obtain ⟨m, rfl⟩ := hd
    have hq : ((10 * m : ℕ) : ℚ) / 10 = (m : ℚ) := by push_cast; field_simp
    refine ⟨natChars m, ['0'], ?_, natChars_nonnil m, natChars_all_dig, by simp,
      by intro c hc; simp at hc; rw [hc]; decide, ?_⟩
    · unfold pyFloatRepr
      rw [if_neg hnonneg, hq, reprDecNN_natCast]
    · unfold hoursVal
      rw [hq, charsVal_natChars]
      have h0 : charsVal ['0'] = 0 := by decide
      rw [h0]
      norm_num
  · refine ⟨natChars (n / 10), [digChr (n % 10)], ?_, natChars_nonnil _, natChars_all_dig,
      by simp, ?_, ?_⟩
    · unfold pyFloatRepr
      rw [if_neg hnonneg, reprDecNN_div10 hd]
    · intro c hc
      simp at hc
      rw [hc]
      exact isDig_digChr (Nat.mod_lt _ (by omega))
    · unfold hoursVal
      rw [charsVal_natChars, charsVal_single_digit (Nat.mod_lt _ (by omega))]
      have hAB : n = 10 * (n / 10) + n % 10 := (Nat.div_add_mod n 10).symm
      have hcast : ((n : ℚ)) = 10 * ((n / 10 : ℕ) : ℚ) + ((n % 10 : ℕ) : ℚ) := by
        exact_mod_cast hAB
      rw [hcast]
      simp only [List.length_singleton, pow_one]
      field_simp
      ring

/-- Running the `parse_entry` matcher over a freshly formatted line
recovers every group. -/

theorem peMatch_format (y m d n : Nat) (descs : List String) (r : Bool)
    (h10 : 1000 ≤ y) (h9999 : y ≤ 9999)
    (hm1 : 1 ≤ m) (hm12 : m ≤ 12) (hd1 : 1 ≤ d) (hd31 : d ≤ 31)
    (hnl : ∀ s ∈ descs, '\n' ∉ s.data) :
    ∃ ip fp,
      peMatch (formatEntry y m d ((n : ℚ) / 10) descs r).data =
        some (natChars y, natChars m, natChars d, (dayAbbr (pyWeekday y m d)).data,
          ip, fp, r, joinDescs descs) ∧
      hoursVal ip fp = (n : ℚ) / 10 := by
  obtain ⟨ip, fp, hrepr, hipne, hipdig, hfpne, hfpdig, hval⟩ := pyFloatRepr_tenths n
  refine ⟨ip, fp, ?_, hval⟩
  have hJnl : '\n' ∉ joinDescs descs := joinDescs_no_nl hnl
  have hYd : ∀ c ∈ natChars y, isDig c = true := natChars_all_dig
  have hYl : (natChars y).length = 4 := natChars_len_four h10 h9999
  have hMd : ∀ c ∈ natChars m, isDig c = true := natChars_all_dig
  have hMl : (natChars m).length = 1 ∨ (natChars m).length = 2 := digs_len12 hm1 (by omega)
  have hDd : ∀ c ∈ natChars d, isDig c = true := natChars_all_dig
  have hDl : (natChars d).length = 1 ∨ (natChars d).length = 2 := digs_len12 hd1 (by omega)
  have hW : ∀ rest, take3Alpha ((dayAbbr (pyWeekday y m d)).data ++ rest) =
      some ((dayAbbr (pyWeekday y m d)).data, rest) :=
    fun rest => take3Alpha_dayAbbr (pyWeekday_lt y m d) rest
  have hdata : (formatEntry y m d ((n : ℚ) / 10) descs r).data =
      natChars y ++ '-' :: (natChars m ++ '-' :: (natChars d ++ ' ' ::
        ((dayAbbr (pyWeekday y m d)).data ++ ' ' :: '(' :: (ip ++ '.' ::
          (fp ++ 'h' :: ((if r then ['+'] else []) ++ ')' :: ':' :: ' ' ::
            joinDescs descs)))))) := by
    show natChars y ++ '-' :: natChars m ++ '-' :: natChars d ++ ' ' ::
        (dayAbbr (pyWeekday y m d)).data ++ ' ' :: '(' :: pyFloatRepr ((n : ℚ) / 10) ++
        'h' :: (if r then ['+'] else []) ++ ')' :: ':' :: ' ' :: joinDescs descs = _
    rw [hrepr]
    simp [List.append_assoc]
  rw [hdata]
  generalize hJ : joinDescs descs = J at hJnl ⊢
  generalize hWD : (dayAbbr (pyWeekday y m d)).data = W at hW ⊢
  generalize hY : natChars y = Y at hYd hYl ⊢
  generalize hM : natChars m = M at hMd hMl ⊢
  generalize hD : natChars d = D at hDd hDl ⊢
  unfold peMatch
  rw [take4Digs_spec _ hYd hYl]
  simp only [Option.bind_eq_bind, Option.some_bind]
  rw [expectC_cons]
  simp only [Option.bind_eq_bind, Option.some_bind]
  rw [take12Then_spec '-' _ hMd hMl (by decide)]
  simp only [Option.bind_eq_bind, Option.some_bind]
  rw [take12Then_spec ' ' _ hDd hDl (by decide)]
  simp only [Option.bind_eq_bind, Option.some_bind]
  rw [hW]
  simp only [Option.bind_eq_bind, Option.some_bind]
  rw [expectC_cons]
  simp only [Option.bind_eq_bind, Option.some_bind]
  rw [expectC_cons]
  simp only [Option.bind_eq_bind, Option.some_bind]
  rw [takeWhile1_spec '.' _ hipdig hipne (by decide)]
  simp only [Option.bind_eq_bind, Option.some_bind]
  rw [optC_hit]
  have hfp := takeWhile_append_cons 'h'
    ((if r then ['+'] else []) ++ ')' :: ':' :: ' ' :: J) hfpdig (by decide)
  rw [hfp.1, hfp.2]
  rw [expectC_cons]
  simp only [Option.bind_eq_bind, Option.some_bind]
  cases r with
  | false =>
    rw [if_neg (by decide : ¬ (false = true))]
    rw [show (([] : List Char) ++ ')' :: ':' :: ' ' :: J) = ')' :: ':' :: ' ' :: J from rfl]
    rw [optC_miss _ (by decide)]
    rw [expectC_cons]
    simp only [Option.bind_eq_bind, Option.some_bind]
    rw [expectC_cons]
    simp only [Option.bind_eq_bind, Option.some_bind]
    rw [expectC_cons]
    simp only [Option.bind_eq_bind, Option.some_bind]
    rw [takeWhile_ne_nl hJnl]
    rfl
  | true =>
    rw [if_pos (by decide : (true = true))]
    rw [show ((['+'] : List Char) ++ ')' :: ':' :: ' ' :: J) = '+' :: ')' :: ':' :: ' ' :: J
      from rfl]
    rw [optC_hit]
    rw [expectC_cons]
    simp only [Option.bind_eq_bind, Option.some_bind]
    rw [expectC_cons]
    simp only [Option.bind_eq_bind, Option.some_bind]
    rw [expectC_cons]
    simp only [Option.bind_eq_bind, Option.some_bind]
    rw [takeWhile_ne_nl hJnl]
    rfl

theorem daysInMonth_le (y m : Nat) : daysInMonth y m ≤ 31 := by
  unfold daysInMonth
  split
  · split <;> omega
  · split <;> omega

theorem isValidDate_bounds {y m d : Nat} (h : isValidDate y m d = true) :
    1 ≤ y ∧ y ≤ 9999 ∧ 1 ≤ m ∧ m ≤ 12 ∧ 1 ≤ d ∧ d ≤ 31 := by
  have hh := h
  unfold isValidDate at hh
  simp only [Bool.and_eq_true, decide_eq_true_eq] at hh
  have := daysInMonth_le y m
  omega

/-- The round trip `parse_entry ∘ format_entry` on a one-decimal hours
value and normalized descriptions. -/

theorem parseEntry_format (y m d n : Nat) (descs : List String) (r : Bool)
    (h10 : 1000 ≤ y) (hval : isValidDate y m d = true)
    (hdescs : ∀ s ∈ descs,
      s.data ≠ [] ∧ pyStripL s.data = s.data ∧ '.' ∉ s.data ∧ '\n' ∉ s.data) :
    parseEntry (formatEntry y m d ((n : ℚ) / 10) descs r) =
      some ⟨y, m, d, dayAbbr (pyWeekday y m d), (n : ℚ) / 10, r, descs,
        ⟨joinDescs descs⟩⟩ := by
  obtain ⟨h1, h9999, hm1, hm12, hd1, hd31⟩ := isValidDate_bounds hval
  obtain ⟨ip, fp, hpe, hhours⟩ := peMatch_format y m d n descs r h10 h9999 hm1 hm12 hd1 hd31
    (fun s hs => (hdescs s hs).2.2.2)
  unfold parseEntry
  simp only [hpe]
  have hnd : isDig '-' = false := by decide
  have hsplit : splitOnCharL '-' (natChars y ++ '-' :: (natChars m ++ '-' :: natChars d)) =
      [natChars y, natChars m, natChars d] := by
    rw [splitOnCharL_append _ (not_mem_of_all_dig natChars_all_dig hnd),
      splitOnCharL_append _ (not_mem_of_all_dig natChars_all_dig hnd),
      splitOnCharL_of_not_mem (not_mem_of_all_dig natChars_all_dig hnd)]
  rw [show (natChars y ++ '-' :: natChars m ++ '-' :: natChars d) =
    (natChars y ++ '-' :: (natChars m ++ '-' :: natChars d)) by simp]
  rw [hsplit]
  simp only [List.getD_cons_zero, List.getD_cons_succ]
  rw [charsVal_natChars, charsVal_natChars, charsVal_natChars]
  rw [if_pos hval]
  rw [hhours]
  rw [descsParse descs (fun s hs =>
    ⟨(hdescs s hs).1, (hdescs s hs).2.1, (hdescs s hs).2.2.1⟩)]

theorem mem_insDesc {acc : List String} {x s : String} :
    s ∈ insDesc acc x ↔ s ∈ acc ∨ s = x := by
  induction acc with
  | nil => simp [insDesc]
  | cons y ys ih =>
    unfold insDesc
    by_cases hle : entryKey x ≤ entryKey y
    · rw [if_pos hle]
      simp only [List.mem_cons, ih]
      tauto
    · rw [if_neg hle]
      simp only [List.mem_cons]
      tauto

theorem insDesc_pairwise {acc : List String} {x : String} (h : acc.Pairwise keyGE) :
    (insDesc acc x).Pairwise keyGE := by
  induction acc with
  | nil => simp [insDesc, List.pairwise_cons]
  | cons y ys ih =>
    rw [List.pairwise_cons] at h
    obtain ⟨h1, h2⟩ := h
    unfold insDesc
    by_cases hle : entryKey x ≤ entryKey y
    · rw [if_pos hle]
      rw [List.pairwise_cons]
      refine ⟨?_, ih h2⟩
      intro z hz
      rcases mem_insDesc.mp hz with hz | rfl
      · exact h1 z hz
      · exact hle
    · rw [if_neg hle]
      rw [List.pairwise_cons]
      refine ⟨?_, List.pairwise_cons.mpr ⟨h1, h2⟩⟩
      intro z hz
      rcases List.mem_cons.mp hz with rfl | hz
      · exact Nat.le_of_lt (Nat.lt_of_not_le hle)
      · exact Nat.le_trans (h1 z hz) (Nat.le_of_lt (Nat.lt_of_not_le hle))

theorem insDesc_filter {acc : List String} {x : String} (h : acc.Pairwise keyGE) (v : Nat) :
    (insDesc acc x).filter (fun s => entryKey s = v) =
      acc.filter (fun s => entryKey s = v) ++ (if entryKey x = v then [x] else []) := by
  induction acc with
  | nil =>
    by_cases hxv : entryKey x = v <;> simp [insDesc, hxv]
  | cons y ys ih =>
    rw [List.pairwise_cons] at h
    obtain ⟨h1, h2⟩ := h
    unfold insDesc
    by_cases hle : entryKey x ≤ entryKey y
    · rw [if_pos hle]
      rw [List.filter_cons, List.filter_cons, ih h2]
      by_cases hyv : entryKey y = v <;> simp [hyv]
    · rw [if_neg hle]
      have hlt : entryKey y < entryKey x := Nat.lt_of_not_le hle
      by_cases hxv : entryKey x = v
      · have hnil : (y :: ys).filter (fun s => entryKey s = v) = [] := by
          apply List.filter_eq_nil_iff.mpr
          intro z hz
          rcases List.mem_cons.mp hz with rfl | hz
          · simp only [decide_eq_true_eq]; omega
          · have := h1 z hz
            simp only [decide_eq_true_eq]
            unfold keyGE at this
            omega
        rw [List.filter_cons]
        simp only [decide_eq_true_eq, hxv, if_pos rfl]
        rw [hnil]
        simp [hxv]
      · rw [List.filter_cons]
        simp only [decide_eq_true_eq, hxv, if_neg hxv]
        simp [hxv]

theorem insDesc_perm (acc : List String) (x : String) : (insDesc acc x).Perm (acc ++ [x]) := by
  induction acc with
  | nil => simp [insDesc]
  | cons y ys ih =>
    unfold insDesc
    by_cases hle : entryKey x ≤ entryKey y
    · rw [if_pos hle]
      exact List.Perm.cons y ih
    · rw [if_neg hle]
      refine List.Perm.trans (List.Perm.swap y x ys) (List.Perm.cons y ?_)
      exact (List.perm_append_singleton x ys).symm

theorem pySortDesc_props (l : List String) :
    (pySortDesc l).Pairwise keyGE ∧
      (∀ v, (pySortDesc l).filter (fun s => entryKey s = v) =
        l.filter (fun s => entryKey s = v)) ∧
      (pySortDesc l).Perm l := by
  have main : ∀ (l acc : List String), acc.Pairwise keyGE →
      (l.foldl insDesc acc).Pairwise keyGE ∧
        (∀ v, (l.foldl insDesc acc).filter (fun s => entryKey s = v) =
          acc.filter (fun s => entryKey s = v) ++ l.filter (fun s => entryKey s = v)) ∧
        (l.foldl insDesc acc).Perm (acc ++ l) := by
    intro l
    induction l with
    | nil =>
      intro acc hp
      exact ⟨hp, fun v => by simp, by simp⟩
    | cons x t ih =>
      intro acc hp
      obtain ⟨ihp, ihf, ihperm⟩ := ih (insDesc acc x) (insDesc_pairwise hp)
      refine ⟨ihp, ?_, ?_⟩
      · intro v
        rw [List.foldl_cons, ihf v, insDesc_filter hp v, List.filter_cons]
        by_cases hxv : entryKey x = v <;> simp [hxv]
      · rw [List.foldl_cons]
        refine ihperm.trans ((((insDesc_perm acc x).append_right t)).trans ?_)
        exact List.Perm.of_eq (by simp)
  obtain ⟨h1, h2, h3⟩ := main l [] (by simp)
  exact ⟨h1, fun v => by simpa using h2 v, by simpa using h3⟩

theorem joinAll_cons (a : List Char) (rest : List (List Char)) :
    joinAll (a :: rest) = a ++ joinAll rest := rfl

theorem reconGo_some_weekJoin :
    ∀ (l : List String) (p : String), (∀ e ∈ l, e ≠ "---") →
      joinAll (reconGo (some p) l) =
        (match l with
         | [] => []
         | e :: _ => sepFor p e ++ weekJoin l) := by
  intro l
  induction l with
  | nil => intro p _; rfl
  | cons e rest ih =>
    intro p h
    have he : e ≠ "---" := h e (List.mem_cons_self _ _)
    show joinAll (reconGo (some p) (e :: rest)) = sepFor p e ++ weekJoin (e :: rest)
    unfold reconGo
    rw [if_neg he]
    rw [joinAll_cons, joinAll_cons]
    rw [ih e (fun x hx => h x (List.mem_cons_of_mem _ hx))]
    cases rest with
    | nil =>
      show sepFor p e ++ (e.data ++ []) = sepFor p e ++ e.data
      rw [List.append_nil]
    | cons f t =>
      show sepFor p e ++ (e.data ++ (sepFor e f ++ weekJoin (f :: t))) =
        sepFor p e ++ (e.data ++ (sepFor e f ++ weekJoin (f :: t)))
      rfl

theorem reconGo_cons (prev : Option String) (a : String) (t : List String) :
    reconGo prev (a :: t) =
      if a = "---" then reconGo prev t
      else
        match prev with
        | none => a.data :: reconGo (some a) t
        | some p => sepFor p a :: a.data :: reconGo (some a) t := rfl

theorem reconGo_filter (l : List String) (prev : Option String) :
    reconGo prev l = reconGo prev (l.filter (fun e => ¬ e = "---")) := by
  induction l generalizing prev with
  | nil => rfl
  | cons e rest ih =>
    by_cases he : e = "---"
    · rw [List.filter_cons_of_neg (by simp [he])]
      rw [reconGo_cons, if_pos he]
      exact ih prev
    · rw [List.filter_cons_of_pos (by simp [he])]
      rw [reconGo_cons, reconGo_cons, if_neg he, if_neg he]
      cases prev with
      | none => rw [ih (some e)]
      | some p => rw [ih (some e)]

/-- The whole rendering: `"---"` placeholders vanish, and the remaining
entries are joined with the week separators, none before the first. -/

theorem recon_weekJoin (l : List String) :
    joinAll (reconstructParts l) = weekJoin (l.filter (fun e => ¬ e = "---")) := by
  unfold reconstructParts
  rw [reconGo_filter]
  have hf : ∀ e ∈ l.filter (fun e => ¬ e = "---"), e ≠ "---" := by
    intro e he
    have := List.of_mem_filter he
    simpa using this
  cases hl : l.filter (fun e => ¬ e = "---") with
  | nil => rfl
  | cons e rest =>
    rw [hl] at hf
    have he : e ≠ "---" := hf e (List.mem_cons_self _ _)
    show joinAll (reconGo none (e :: rest)) = weekJoin (e :: rest)
    unfold reconGo
    rw [if_neg he, joinAll_cons]
    rw [reconGo_some_weekJoin rest e (fun x hx => hf x (List.mem_cons_of_mem _ hx))]
    cases rest with
    | nil =>
      show e.data ++ [] = e.data
      rw [List.append_nil]
    | cons f t => rfl

theorem parseLeadDate_ne_sep {s : String} {pd : Nat × Nat × Nat}
    (h : parseLeadDate s.data = some pd) : s ≠ "---" := by
  intro he
  rw [he] at h
  have : parseLeadDate ("---" : String).data = none := by decide
  rw [this] at h
  cases h

theorem entryKey_of_parse {s : String} {y m d : Nat}
    (h : parseLeadDate s.data = some (y, m, d)) : entryKey s = toOrd y m d * USEC := by
  unfold entryKey
  rw [if_neg (parseLeadDate_ne_sep h), h]

theorem entryKey_parse_ne_kmax {s : String} {y m d : Nat}
    (h : parseLeadDate s.data = some (y, m, d)) : entryKey s ≠ KMAX := by
  rw [entryKey_of_parse h]
  unfold KMAX USEC
  intro he
  omega

/-- The separator decision for two dated entries, when neither date is the
`datetime.min` sentinel: a horizontal rule exactly on a change of
Monday-anchored week. -/

theorem sepFor_spec {prev cur : String} {pd cd : Nat × Nat × Nat}
    (hp : parseLeadDate prev.data = some pd) (_hc : parseLeadDate cur.data = some cd)
    (hpmin : entryKey prev ≠ KMIN) (hcmin : entryKey cur ≠ KMIN) :
    (sepFor prev cur = "\n\n---\n\n".data ↔
      mondayOrd (entryKey prev) ≠ mondayOrd (entryKey cur)) ∧
    (sepFor prev cur = "\n\n".data ↔
      mondayOrd (entryKey prev) = mondayOrd (entryKey cur)) := by
  obtain ⟨y, m, d⟩ := pd
  have hmax : entryKey prev ≠ KMAX := entryKey_parse_ne_kmax hp
  have hne : ("\n\n---\n\n" : String).data ≠ ("\n\n" : String).data := by decide
  unfold sepFor
  by_cases hmon : mondayOrd (entryKey prev) = mondayOrd (entryKey cur)
  · rw [if_neg (by tauto)]
    exact ⟨⟨fun hh => absurd hh.symm hne, fun hh => absurd hmon hh⟩,
      ⟨fun _ => hmon, fun _ => rfl⟩⟩
  · rw [if_pos ⟨hpmin, hcmin, hmax, hmon⟩]
    exact ⟨⟨fun _ => hmon, fun _ => rfl⟩,
      ⟨fun hh => absurd hh hne, fun hh => absurd hh hmon⟩⟩

/-! ## The trailing-newline invariant of the re-normalization pass -/

theorem dropWhile_head_not {p : Char → Bool} (l : List Char) :
    l.dropWhile p = [] ∨ ∃ c t, l.dropWhile p = c :: t ∧ p c = false := by
  induction l with
  | nil => exact Or.inl rfl
  | cons x xs ih =>
    by_cases hx : p x
    · rw [List.dropWhile_cons_of_pos hx]
      exact ih
    · rw [List.dropWhile_cons_of_neg hx]
      exact Or.inr ⟨x, xs, rfl, by simpa using hx⟩

/-- A non-empty stripped string ends in a non-whitespace character. -/

theorem pyStripL_last_not_space (l : List Char) :
    pyStripL l = [] ∨ ∃ c, (pyStripL l).getLast? = some c ∧ isSpc c = false := by
  unfold pyStripL
  rcases dropWhile_head_not (p := isSpc) ((l.dropWhile isSpc).reverse) with h | ⟨c, t, h, hc⟩
  · rw [h]; exact Or.inl rfl
  · rw [h]
    refine Or.inr ⟨c, ?_, hc⟩
    rw [List.getLast?_reverse]
    rfl

/-- Only all-whitespace text strips to nothing. -/

theorem pyStripL_ne_nil {l : List Char} {c : Char} (hc : c ∈ l) (hs : isSpc c = false) :
    pyStripL l ≠ [] := by
  intro he
  unfold pyStripL at he
  rw [List.reverse_eq_nil_iff, List.dropWhile_eq_nil_iff] at he
  have hmem : c ∈ l.dropWhile isSpc := by
    have hsplit := List.takeWhile_append_dropWhile (p := isSpc) (l := l)
    rw [← hsplit] at hc
    rcases List.mem_append.mp hc with h | h
    · have := List.mem_takeWhile_imp h
      rw [hs] at this
      cases this
    · exact h
  have := he c (by simpa using hmem)
  rw [hs] at this
  cases this

theorem isDig_not_spc {c : Char} (h : isDig c = true) : isSpc c = false := by
  by_contra hsp
  have hsp2 : isSpc c = true := by
    cases hcd : isSpc c
    · exact absurd hcd hsp
    · rfl
  simp only [isSpc, Bool.or_eq_true, decide_eq_true_eq] at hsp2
  rcases hsp2 with ((((h1 | h1) | h1) | h1) | h1) | h1 <;> subst h1 <;> revert h <;> decide

theorem hdrAt_head {l : List Char} (h : hdrAt l = true) :
    ∃ c t, l = c :: t ∧ isDig c = true := by
  cases l with
  | nil => cases h
  | cons c t =>
    refine ⟨c, t, rfl, ?_⟩
    by_contra hnd
    have hnd2 : isDig c = false := by
      cases hcd : isDig c
      · rfl
      · exact absurd hcd hnd
    have key : take4Digs (c :: t) = none := by
      match t with
      | [] => rfl
      | [b] => rfl
      | [b, e] => rfl
      | b :: e :: f :: w =>
        show (if (isDig c && isDig b && isDig e && isDig f) = true then _ else none) = none
        rw [hnd2]
        simp
    unfold hdrAt at h
    rw [key] at h
    simp at h

theorem entryLenGo_ge (l : List Char) : ∀ fuel e, e ≤ entryLenGo l fuel e := by
  intro fuel
  induction fuel with
  | zero => intro e; exact Nat.le_refl _
  | succ fuel ih =>
    intro e
    unfold entryLenGo
    by_cases hc : l.get? e = some '\n' && ¬ hdrAt (l.drop (e + 1)) = true
    · rw [if_pos hc]
      exact Nat.le_trans (by omega) (ih (e + 1 + lineTakeLen (l.drop (e + 1))))
    · rw [if_neg hc]

/-- Every entry the finditer scan emits is non-empty and ends in a
non-whitespace character. -/

theorem mem_extractGo {e : String} :
    ∀ (fuel : Nat) (atLS : Bool) (l : List Char), e ∈ extractGo fuel atLS l →
      e ≠ "" ∧ ∃ c, e.data.getLast? = some c ∧ isSpc c = false := by
  intro fuel
  induction fuel with
  | zero => intro atLS l h; cases h
  | succ fuel ih =>
    intro atLS l h
    cases l with
    | nil => cases h
    | cons x t =>
      unfold extractGo at h
      by_cases hh : atLS && hdrAt (x :: t)
      · rw [if_pos hh] at h
        by_cases he0 : entryLen (x :: t) = 0
        · rw [if_pos he0] at h
          exact ih _ _ h
        · rw [if_neg he0] at h
          rcases List.mem_cons.mp h with rfl | h2
          · obtain ⟨-, hdr⟩ : atLS = true ∧ hdrAt (x :: t) = true := by simpa using hh
            obtain ⟨c, t2, hct, hcd⟩ := hdrAt_head hdr
            have hcx : c = x := by
              rw [List.cons.injEq] at hct
              exact hct.1.symm
            have hsp : isSpc x = false := by
              rw [← hcx]
              exact isDig_not_spc hcd
            have hx_mem : x ∈ (x :: t).take (entryLen (x :: t)) := by
              cases hel : entryLen (x :: t) with
              | zero => exact absurd hel he0
              | succ k =>
                rw [List.take_succ_cons]
                exact List.mem_cons_self _ _
            have hne := pyStripL_ne_nil hx_mem hsp
            refine ⟨?_, ?_⟩
            · intro hemp
              apply hne
              have : (⟨pyStripL ((x :: t).take (entryLen (x :: t)))⟩ : String).data =
                ("" : String).data := by rw [hemp]
              exact this
            · rcases pyStripL_last_not_space ((x :: t).take (entryLen (x :: t))) with hnil | hOK
              · exact absurd hnil hne
              · exact hOK
          · exact ih _ _ h2
      · rw [if_neg hh] at h
        exact ih _ _ h

theorem mem_extractEntries {e : String} {part : List Char} (h : e ∈ extractEntries part) :
    e ≠ "" ∧ ∃ c, e.data.getLast? = some c ∧ isSpc c = false :=
  mem_extractGo _ _ _ h

theorem mem_collectEntries {e : String} {l : List Char} (h : e ∈ collectEntries l) :
    e = "---" ∨ (e ≠ "" ∧ ∃ c, e.data.getLast? = some c ∧ isSpc c = false) := by
  unfold collectEntries at h
  by_cases hs : pyStripL l = []
  · rw [if_pos hs] at h; cases h
  · rw [if_neg hs] at h
    have main : ∀ (parts : List (List Char)) (acc : List String),
        (∀ x ∈ acc, x = "---" ∨ (x ≠ "" ∧ ∃ c, x.data.getLast? = some c ∧ isSpc c = false)) →
        e ∈ parts.foldl (fun acc part =>
          if (sepMatchAt part).isSome then
            if acc ≠ [] ∧ acc.getLast? ≠ some "---" then acc ++ ["---"] else acc
          else acc ++ extractEntries part) acc →
        e = "---" ∨ (e ≠ "" ∧ ∃ c, e.data.getLast? = some c ∧ isSpc c = false) := by
      intro parts
      induction parts with
      | nil => intro acc hacc hmem; exact hacc e hmem
      | cons p ps ih =>
        intro acc hacc hmem
        rw [List.foldl_cons] at hmem
        apply ih _ ?_ hmem
        intro x hx
        by_cases hsep : (sepMatchAt p).isSome
        · rw [if_pos hsep] at hx
          by_cases hcond : acc ≠ [] ∧ acc.getLast? ≠ some "---"
          · rw [if_pos hcond] at hx
            rcases List.mem_append.mp hx with hx | hx
            · exact hacc x hx
            · left
              simpa using hx
          · rw [if_neg hcond] at hx
            exact hacc x hx
        · rw [if_neg hsep] at hx
          rcases List.mem_append.mp hx with hx | hx
          · exact hacc x hx
          · exact Or.inr (mem_extractEntries hx)
    exact main _ [] (by intro x hx; cases hx) h

theorem joinAll_reconGo_ends (l : List String) (prev : Option String)
    (h : ∀ e ∈ l, e ≠ "---" →
      e ≠ "" ∧ ∃ c, e.data.getLast? = some c ∧ isSpc c = false) :
    joinAll (reconGo prev l) = [] ∨
      ∃ c, (joinAll (reconGo prev l)).getLast? = some c ∧ isSpc c = false := by
  induction l generalizing prev with
  | nil => exact Or.inl rfl
  | cons e rest ih =>
    rw [reconGo_cons]
    by_cases he : e = "---"
    · rw [if_pos he]
      exact ih prev (fun x hx => h x (List.mem_cons_of_mem _ hx))
    · rw [if_neg he]
      obtain ⟨hene, c0, hc0, hc0s⟩ := h e (List.mem_cons_self _ _) he
      have hedata : e.data ≠ [] := by
        intro hd
        apply hene
        have he2 : e = ⟨e.data⟩ := rfl
        rw [he2, hd]
      have tail := ih (some e) (fun x hx => h x (List.mem_cons_of_mem _ hx))
      have key : ∀ (pre : List Char),
          ∃ c, (pre ++ (e.data ++ joinAll (reconGo (some e) rest))).getLast? = some c ∧
            isSpc c = false := by
        intro pre
        rcases tail with hnil | ⟨c, hlast, hcs⟩
        · refine ⟨c0, ?_, hc0s⟩
          rw [hnil, List.append_nil, List.getLast?_append_of_ne_nil _ hedata]
          exact hc0
        · have hjne : joinAll (reconGo (some e) rest) ≠ [] := by
            intro hz; rw [hz] at hlast; cases hlast
          refine ⟨c, ?_, hcs⟩
          rw [List.getLast?_append_of_ne_nil _ (by
            intro hz
            exact hjne (List.append_eq_nil.mp hz).2)]
          rw [List.getLast?_append_of_ne_nil _ hjne]
          exact hlast
      cases prev with
      | none =>
        right
        rw [joinAll_cons]
        have hk := key []
        simpa using hk
      | some p =>
        right
        rw [joinAll_cons, joinAll_cons]
        exact key (sepFor p e)

theorem rstripNl_last (l : List Char) : ¬ (rstripNlL l).getLast? = some '\n' := by
  unfold rstripNlL
  rw [List.getLast?_reverse]
  rcases dropWhile_head_not (p := fun c => c = '\n') (l.reverse) with h | ⟨c, t, h, hc⟩
  · rw [h]; intro hh; cases hh
  · rw [h]
    intro hh
    rw [List.head?_cons, Option.some.injEq] at hh
    rw [hh] at hc
    simp at hc

/-- The re-rendered document always ends in exactly one newline. -/

theorem renormalize_one_nl (s : String) :
    ∃ t, (renormalize s).data = t ++ ['\n'] ∧ ¬ t.getLast? = some '\n' := by
  show ∃ t, renormalizeL s.data = t ++ ['\n'] ∧ ¬ t.getLast? = some '\n'
  unfold renormalizeL
  set tp := stripTitle s.data with htp
  set rest := hruleSubL (lstripNlL tp.2) with hrest
  set sorted := pySortDesc (collectEntries rest) with hsorted
  set entriesSec := joinAll (reconstructParts sorted) with hsec
  have hSecEnds : entriesSec = [] ∨
      ∃ c, entriesSec.getLast? = some c ∧ isSpc c = false := by
    rw [hsec]
    apply joinAll_reconGo_ends
    intro e he hne
    have hmem : e ∈ collectEntries rest := ((pySortDesc_props (collectEntries rest)).2.2).mem_iff.mp he
    rcases mem_collectEntries hmem with h | h
    · exact absurd h hne
    · exact h
  by_cases ht : tp.1 ≠ []
  · rw [if_pos ht]
    by_cases hs2 : entriesSec ≠ []
    · rw [if_pos hs2]
      refine ⟨rstripNlL tp.1 ++ '\n' :: '\n' :: entriesSec, by simp, ?_⟩
      rcases hSecEnds with hnil | ⟨c, hlast, hcs⟩
      · exact absurd hnil hs2
      · rw [show rstripNlL tp.1 ++ '\n' :: '\n' :: entriesSec =
          (rstripNlL tp.1 ++ ['\n', '\n']) ++ entriesSec by simp]
        rw [List.getLast?_append_of_ne_nil _ hs2]
        rw [hlast]
        intro hh
        rw [Option.some.injEq] at hh
        rw [hh] at hcs
        simp [isSpc] at hcs
    · rw [if_neg hs2]
      exact ⟨rstripNlL tp.1, rfl, rstripNl_last _⟩
  · rw [if_neg ht]
    by_cases hs2 : entriesSec ≠ []
    · rw [if_pos hs2]
      refine ⟨entriesSec, rfl, ?_⟩
      rcases hSecEnds with hnil | ⟨c, hlast, hcs⟩
      · exact absurd hnil hs2
      · rw [hlast]
        intro hh
        rw [Option.some.injEq] at hh
        rw [hh] at hcs
        simp [isSpc] at hcs
    · rw [if_neg hs2]
      exact ⟨[], rfl, by intro hh; cases hh⟩

/-! ## Accumulator-loop lemmas shared by the two deduplicators -/

theorem foldl_accum_sublist (step : List String → String → List String)
    (hstep : ∀ acc d, step acc d = acc ∨ step acc d = acc ++ [d]) :
    ∀ (l acc : List String), ∃ t, l.foldl step acc = acc ++ t ∧ t.Sublist l := by
  intro l
  induction l with
  | nil => intro acc; exact ⟨[], by simp, List.nil_sublist _⟩
  | cons d ds ih =>
    intro acc
    rw [List.foldl_cons]
    rcases hstep acc d with h | h
    · obtain ⟨t, ht, hs⟩ := ih acc
      rw [h]
      exact ⟨t, ht, hs.trans (List.sublist_cons_self d ds)⟩
    · obtain ⟨t, ht, hs⟩ := ih (acc ++ [d])
      rw [h]
      refine ⟨d :: t, by rw [ht]; simp, ?_⟩
      exact List.Sublist.cons₂ d hs

theorem dedupSimilar_sublist (l : List String) : (dedupSimilar l).Sublist l := by
  obtain ⟨t, ht, hs⟩ := foldl_accum_sublist dedupStep
    (fun acc d => by
      unfold dedupStep
      by_cases h : isSimilarB d acc
      · exact Or.inl (by rw [if_pos h])
      · exact Or.inr (by rw [if_neg h])) l []
  unfold dedupSimilar
  rw [ht]
  simpa using hs

theorem isSimilarB_iff (d : String) (acc : List String) :
    isSimilarB d acc = true ↔ ∃ e ∈ acc, (17 : ℚ) / 20 < ratioQ d.data e.data := by
  unfold isSimilarB
  rw [List.any_eq_true]
  constructor
  · rintro ⟨e, he, hd⟩
    exact ⟨e, he, of_decide_eq_true hd⟩
  · rintro ⟨e, he, hd⟩
    exact ⟨e, he, decide_eq_true hd⟩

theorem dedupExact_sublist (l : List String) : (dedupExact l).Sublist l := by
  obtain ⟨t, ht, hs⟩ := foldl_accum_sublist
    (fun acc d => if d ∈ acc then acc else acc ++ [d])
    (fun acc d => by
      show (if d ∈ acc then acc else acc ++ [d]) = acc ∨
        (if d ∈ acc then acc else acc ++ [d]) = acc ++ [d]
      by_cases h : d ∈ acc
      · exact Or.inl (by rw [if_pos h])
      · exact Or.inr (by rw [if_neg h])) l []
  unfold dedupExact
  rw [ht]
  simpa using hs

theorem mem_dedupExact {l : List String} {s : String} : s ∈ dedupExact l ↔ s ∈ l := by
  have main : ∀ (l acc : List String),
      s ∈ l.foldl (fun acc d => if d ∈ acc then acc else acc ++ [d]) acc ↔
        s ∈ acc ∨ s ∈ l := by
    intro l
    induction l with
    | nil => intro acc; simp
    | cons d ds ih =>
      intro acc
      rw [List.foldl_cons, ih]
      show s ∈ (if d ∈ acc then acc else acc ++ [d]) ∨ s ∈ ds ↔ s ∈ acc ∨ s ∈ d :: ds
      by_cases h : d ∈ acc
      · rw [if_pos h]
        constructor
        · rintro (h1 | h1)
          · exact Or.inl h1
          · exact Or.inr (List.mem_cons_of_mem _ h1)
        · rintro (h1 | h1)
          · exact Or.inl h1
          · rcases List.mem_cons.mp h1 with rfl | h2
            · exact Or.inl h
            · exact Or.inr h2
      · rw [if_neg h]
        simp only [List.mem_append, List.mem_singleton, List.mem_cons]
        tauto
  unfold dedupExact
  rw [main]
  simp

/-- The leading-date parse only accepts calendar-valid dates
(`strptime` raises otherwise). -/

theorem parseLeadDate_valid {l : List Char} {y m d : Nat}
    (h : parseLeadDate l = some (y, m, d)) : isValidDate y m d = true := by
  unfold parseLeadDate at h
  rcases h1 : take4Digs l with _ | ⟨y4, r1⟩ <;> rw [h1] at h
  · cases h
  · simp only [Option.bind_eq_bind, Option.some_bind] at h
    rcases h2 : expectC '-' r1 with _ | r2 <;> rw [h2] at h
    · cases h
    · simp only [Option.bind_eq_bind, Option.some_bind] at h
      rcases h3 : take12Then '-' r2 with _ | ⟨md, r3⟩ <;> rw [h3] at h
      · cases h
      · simp only [Option.bind_eq_bind, Option.some_bind] at h
        rcases h4 : take12Free r3 with _ | ⟨dd, r4⟩ <;> rw [h4] at h
        · cases h
        · simp only [Option.bind_eq_bind, Option.some_bind] at h
          by_cases hv : isValidDate (charsVal y4) (charsVal md) (charsVal dd) = true
          · rw [if_pos hv] at h
            rw [Option.some.injEq] at h
            obtain ⟨rfl, rfl, rfl⟩ := h
            exact hv
          · rw [if_neg hv] at h
            cases h

theorem entryKey_min_le (s : String) : KMIN ≤ entryKey s := by
  unfold entryKey
  by_cases hs : s = "---"
  · rw [if_pos hs]
    unfold KMIN KMAX USEC
    omega
  · rw [if_neg hs]
    rcases hp : parseLeadDate s.data with _ | ⟨y, m, d⟩
    · exact Nat.le_refl _
    · have hv := parseLeadDate_valid hp
      have hb := isValidDate_bounds hv
      have hord : 1 ≤ toOrd y m d := by
        unfold toOrd
        omega
      unfold KMIN USEC
      calc 86400000000 = 1 * 86400000000 := by omega
      _ ≤ toOrd y m d * 86400000000 := Nat.mul_le_mul_right _ hord

theorem entryKey_unparseable {s : String} (hs : s ≠ "---")
    (hp : parseLeadDate s.data = none) : entryKey s = KMIN := by
  unfold entryKey
  rw [if_neg hs, hp]

/-- A successful `Except` value feeds its payload to the continuation. -/

theorem exceptBind_ok {ε α β : Type} (a : α) (f : α → Except ε β) :
    (Except.ok (ε := ε) a >>= f) = f a := rfl

end TG

namespace TG

section ClaimEvidence

attribute [local semireducible] Rat.mul Rat.add Rat.sub Rat.inv Rat.ofScientific

/-- C1 (counterexample): after a first successful run from an empty
document, the produced document is `"2025-4-9 Wed (2.0h): Foo.\n"`; running
the reconciler again on that very output with the same remote data
performs a second write (the skip path is not taken), even though the
written bytes are identical. -/
theorem claim1_counterexample :
    syncToGithub 0 "" [day49] = ("2025-4-9 Wed (2.0h): Foo.\n", true) ∧
    syncToGithub 0 "2025-4-9 Wed (2.0h): Foo.\n" [day49] =
      ("2025-4-9 Wed (2.0h): Foo.\n", true) := by
  decide

/-- C1 (amended): a run takes the no-change skip path — returning the
fetched text unchanged and performing no write — exactly when the per-day
splices leave the fetched text byte-identical; a second run whose splices
are textual no-ops is therefore a no-op, but a located span that includes
the document's trailing newline makes the splice differ and forces a
second (byte-identical) write. -/
theorem claim1_second_run (now : ℚ) (content : String) (days : List Day) :
    (applyDays now content days = content →
      syncToGithub now content days = (content, false)) ∧
    ((syncToGithub now content days).2 = false → applyDays now content days = content) := by
  constructor
  · intro h
    unfold syncToGithub
    rw [if_pos h]
  · intro h
    unfold syncToGithub at h
    by_cases hc : applyDays now content days = content
    · exact hc
    · rw [if_neg hc] at h
      cases h

/-- C1 (witness): on a document where the day's entry is followed by a
blank line, the second run's splice is a textual no-op and the skip path
is taken. -/
theorem claim1_witness :
    applyDays 0 "2025-4-9 Wed (2.0h): Foo.\n\nextra\n" [day49] =
      "2025-4-9 Wed (2.0h): Foo.\n\nextra\n" ∧
    syncToGithub 0 "2025-4-9 Wed (2.0h): Foo.\n\nextra\n" [day49] =
      ("2025-4-9 Wed (2.0h): Foo.\n\nextra\n", false) :=
  ⟨by decide, (claim1_second_run 0 "2025-4-9 Wed (2.0h): Foo.\n\nextra\n" [day49]).1 (by decide)⟩

/-- C2 (counterexample): on the document `"Hello"` with one zero-hour day,
the splices change nothing, so the run skips the write — although the
re-rendered text of that document (`"\n"`) is not byte-identical to it;
the skip decision is therefore not based on the final re-rendered text. -/
theorem claim2_counterexample :
    applyDays 0 "Hello" [zeroDay] = "Hello" ∧
    (syncToGithub 0 "Hello" [zeroDay]).2 = false ∧
    renormalize "Hello" ≠ "Hello" := by
  decide

/-- C2 (amended): the write decision compares the spliced text before the
global strip/sort/re-render pass with the originally fetched text: the
write is skipped iff they are byte-identical, and when they differ the
final re-rendered text is written unconditionally. -/
theorem claim2_skip_rule (now : ℚ) (content : String) (days : List Day) :
    ((syncToGithub now content days).2 = false ↔ applyDays now content days = content) ∧
    ((syncToGithub now content days).2 = true →
      (syncToGithub now content days).1 = renormalize (applyDays now content days)) ∧
    ((syncToGithub now content days).2 = false → (syncToGithub now content days).1 = content) := by
  unfold syncToGithub
  by_cases hc : applyDays now content days = content
  · rw [if_pos hc]
    refine ⟨⟨fun _ => hc, fun _ => rfl⟩, fun h => ?_, fun _ => rfl⟩
    simp at h
  · rw [if_neg hc]
    refine ⟨⟨fun h => ?_, fun h => absurd h hc⟩, fun _ => rfl, fun h => ?_⟩
    · simp at h
    · simp at h

/-- C2 (witness): the skip rule applied to the `"Hello"` document. -/
theorem claim2_witness :
    (syncToGithub 0 "Hello" [zeroDay]).2 = false ∧
    (syncToGithub 0 "Hello" [zeroDay]).1 = "Hello" := by
  have h := claim2_skip_rule 0 "Hello" [zeroDay]
  have hskip := h.1.mpr (by decide)
  exact ⟨hskip, h.2.2 hskip⟩

/-- C3: when both lines parse, `merge_entries` re-renders the existing
entry's date with the maximum of the two hours, the disjunction of the
running flags and the order-preserving exact-equality union of the
descriptions (existing first); if either side fails to parse it returns
the new line verbatim; in particular a smaller new hours value never
lowers the recorded hours. -/
theorem claim3_merge (ex new : String) :
    (∀ pe pn, parseEntry ex = some pe → parseEntry new = some pn →
      mergeEntries ex new =
        formatEntry pe.y pe.m pe.d (max pe.hours pn.hours)
          (dedupExact (pe.descriptions ++ pn.descriptions))
          (pe.hasRunningEntry || pn.hasRunningEntry) ∧
      (dedupExact (pe.descriptions ++ pn.descriptions)).Sublist
        (pe.descriptions ++ pn.descriptions) ∧
      (∀ s, s ∈ dedupExact (pe.descriptions ++ pn.descriptions) ↔
        s ∈ pe.descriptions ∨ s ∈ pn.descriptions) ∧
      (pn.hours < pe.hours → max pe.hours pn.hours = pe.hours)) ∧
    ((parseEntry ex = none ∨ parseEntry new = none) → mergeEntries ex new = new) := by
  constructor
  · intro pe pn hpe hpn
    refine ⟨?_, dedupExact_sublist _, ?_, fun h => max_eq_left (le_of_lt h)⟩
    · unfold mergeEntries
      rw [hpe, hpn]
    · intro s
      rw [mem_dedupExact, List.mem_append]
  · intro h
    unfold mergeEntries
    rcases hx : parseEntry ex with _ | pe
    · rfl
    · rcases hy : parseEntry new with _ | pn
      · rfl
      · rcases h with h | h
        · rw [hx] at h; cases h
        · rw [hy] at h; cases h

/-- C3 (witness): merging a 3.5-hour line with a 2.5-hour running line
keeps 3.5 hours, turns the running flag on and unions the descriptions. -/
theorem claim3_witness :
    mergeEntries "2025-4-9 Wed (3.5h): Old task." "2025-4-9 Wed (2.5h+): Old task. New one." =
      "2025-4-9 Wed (3.5h+): Old task. New one." ∧
    mergeEntries "garbage" "2025-4-9 Wed (2.5h): X." = "2025-4-9 Wed (2.5h): X." := by
  constructor
  · have h := (claim3_merge "2025-4-9 Wed (3.5h): Old task."
      "2025-4-9 Wed (2.5h+): Old task. New one.").1
      ⟨2025, 4, 9, "Wed", (7 : ℚ) / 2, false, ["Old task"], "Old task."⟩
      ⟨2025, 4, 9, "Wed", (5 : ℚ) / 2, true, ["Old task", "New one"], "Old task. New one."⟩
      (by decide) (by decide)
    rw [h.1]
    decide
  · exact (claim3_merge "garbage" "2025-4-9 Wed (2.5h): X.").2
      (Or.inl (by decide))

/-- C4: the description deduplicator is order-preserving (its output is a
sublist of its input, first occurrences in input order) and drops a
candidate exactly when its similarity ratio against some already-accepted
description strictly exceeds 0.85; two 0.86-similar descriptions collapse
to one, two 0.80-similar ones both survive. -/
theorem claim4_dedup :
    (∀ l, (dedupSimilar l).Sublist l) ∧
    (∀ acc d,
      ((∃ e ∈ acc, (17 : ℚ) / 20 < ratioQ d.data e.data) → dedupStep acc d = acc) ∧
      ((∀ e ∈ acc, ¬ (17 : ℚ) / 20 < ratioQ d.data e.data) → dedupStep acc d = acc ++ [d])) ∧
    ratioQ simDescA.data simDescB.data = 43 / 50 ∧
    dedupSimilar [simDescA, simDescB] = [simDescA] ∧
    ratioQ simDescC.data simDescD.data = 4 / 5 ∧
    dedupSimilar [simDescC, simDescD] = [simDescC, simDescD] := by
  refine ⟨dedupSimilar_sublist, fun acc d => ⟨?_, ?_⟩, by decide, by decide, by decide, by decide⟩
  · intro h
    unfold dedupStep
    rw [if_pos ((isSimilarB_iff d acc).mpr h)]
  · intro h
    unfold dedupStep
    rw [if_neg (fun hb => ?_)]
    obtain ⟨e, he, hr⟩ := (isSimilarB_iff d acc).mp hb
    exact h e he hr

/-- C4 (witness): one accumulator step at each threshold side. -/
theorem claim4_witness :
    dedupStep [simDescA] simDescB = [simDescA] ∧
    dedupStep [simDescC] simDescD = [simDescC, simDescD] := by
  have h := claim4_dedup
  constructor
  · exact (h.2.1 [simDescA] simDescB).1 ⟨simDescA, by simp, by decide⟩
  · refine (h.2.1 [simDescC] simDescD).2 ?_
    intro e he
    have : e = simDescC := by simpa using he
    rw [this]
    decide

/-- C5: parsing a freshly formatted line recovers the date components,
the one-decimal hours value and the running flag exactly, and the
descriptions exactly whenever they are already in normal form (non-empty,
stripped, period- and newline-free) — which is precisely recovery up to
whitespace trimming and period normalization. -/
theorem claim5_roundtrip (y m d n : Nat) (descs : List String) (r : Bool)
    (h10 : 1000 ≤ y) (hval : isValidDate y m d = true)
    (hdescs : ∀ s ∈ descs,
      s.data ≠ [] ∧ pyStripL s.data = s.data ∧ '.' ∉ s.data ∧ '\n' ∉ s.data) :
    parseEntry (formatEntry y m d ((n : ℚ) / 10) descs r) =
      some ⟨y, m, d, dayAbbr (pyWeekday y m d), (n : ℚ) / 10, r, descs,
        ⟨joinDescs descs⟩⟩ :=
  parseEntry_format y m d n descs r h10 hval hdescs

/-- C5 (witness): the specification's own example line. -/
theorem claim5_witness :
    parseEntry (formatEntry 2025 4 9 ((25 : ℚ) / 10) ["Task 1", "Task 2"] false) =
      some ⟨2025, 4, 9, dayAbbr (pyWeekday 2025 4 9), (25 : ℚ) / 10, false,
        ["Task 1", "Task 2"], ⟨joinDescs ["Task 1", "Task 2"]⟩⟩ :=
  claim5_roundtrip 2025 4 9 25 ["Task 1", "Task 2"] false (by decide) (by decide) (by decide)

/-- C6: the re-normalization sort is descending in the parsed leading
date, stable (the relative order within every key class is preserved), a
permutation of its input; an entry whose date fails to parse gets the
minimal key, which bounds every key from below — such entries sort to the
oldest position.  The key function is a total Lean function, so it never
raises. -/
theorem claim6_sort :
    (∀ l, (pySortDesc l).Pairwise keyGE) ∧
    (∀ l v, (pySortDesc l).filter (fun s => entryKey s = v) =
      l.filter (fun s => entryKey s = v)) ∧
    (∀ l, (pySortDesc l).Perm l) ∧
    (∀ s, s ≠ "---" → parseLeadDate s.data = none → entryKey s = KMIN) ∧
    (∀ s, KMIN ≤ entryKey s) :=
  ⟨fun l => (pySortDesc_props l).1, fun l => (pySortDesc_props l).2.1,
    fun l => (pySortDesc_props l).2.2,
    fun _ h1 h2 => entryKey_unparseable h1 h2, entryKey_min_le⟩

/-- C6 (witness): an invalid month sorts below a real date. -/
theorem claim6_witness :
    entryKey "2025-99-1 Xxx (1.0h): A." = KMIN ∧
    pySortDesc ["2025-99-1 Xxx (1.0h): A.", "2025-4-9 Wed (2.0h): B."] =
      ["2025-4-9 Wed (2.0h): B.", "2025-99-1 Xxx (1.0h): A."] :=
  ⟨claim6_sort.2.2.2.1 "2025-99-1 Xxx (1.0h): A." (by decide) (by decide), by decide⟩

/-- C7 (counterexample): two consecutive entries whose dates both parse
(`0001-1-8` and `0001-1-1`) lie in different Monday-anchored weeks, yet
the rendered document separates them with a single blank line, because
the parsed date `0001-1-1` coincides with the `datetime.min` fallback and
is treated as unparseable by the separator logic. -/
theorem claim7_counterexample :
    (parseLeadDate ("0001-1-8 Mon (1.0h): A." : String).data).isSome = true ∧
    (parseLeadDate ("0001-1-1 Mon (1.0h): B." : String).data).isSome = true ∧
    mondayOrd (entryKey "0001-1-8 Mon (1.0h): A.") ≠
      mondayOrd (entryKey "0001-1-1 Mon (1.0h): B.") ∧
    sepFor "0001-1-8 Mon (1.0h): A." "0001-1-1 Mon (1.0h): B." = ("\n\n" : String).data ∧
    renormalize "0001-1-8 Mon (1.0h): A.\n\n0001-1-1 Mon (1.0h): B.\n" =
      "0001-1-8 Mon (1.0h): A.\n\n0001-1-1 Mon (1.0h): B.\n" := by
  decide

/-- C7 (amended): the re-rendering joins the (non-separator) entries with
no separator before the first one; between consecutive entries whose
dates parse and are distinct from the `datetime.min` sentinel
(year-1 January 1), a horizontal-rule block appears exactly when their
Monday-anchored week starts differ, a single blank line exactly when they
coincide; a Sunday before the next Monday gets the rule, a Tuesday before
the same week's Monday the blank line. -/
theorem claim7_separators :
    (∀ l, joinAll (reconstructParts l) = weekJoin (l.filter (fun e => ¬ e = "---"))) ∧
    (∀ prev cur pd cd, parseLeadDate prev.data = some pd → parseLeadDate cur.data = some cd →
      entryKey prev ≠ KMIN → entryKey cur ≠ KMIN →
      ((sepFor prev cur = ("\n\n---\n\n" : String).data ↔
        mondayOrd (entryKey prev) ≠ mondayOrd (entryKey cur)) ∧
       (sepFor prev cur = ("\n\n" : String).data ↔
        mondayOrd (entryKey prev) = mondayOrd (entryKey cur)))) ∧
    renormalize "2025-4-14 Mon (2.0h): A.\n\n2025-4-13 Sun (1.0h): B.\n" =
      "2025-4-14 Mon (2.0h): A.\n\n---\n\n2025-4-13 Sun (1.0h): B.\n" ∧
    renormalize "2025-4-15 Tue (2.0h): A.\n\n2025-4-14 Mon (1.0h): B.\n" =
      "2025-4-15 Tue (2.0h): A.\n\n2025-4-14 Mon (1.0h): B.\n" := by
  refine ⟨recon_weekJoin, ?_, by decide, by decide⟩
  intro prev cur pd cd hp hc hpmin hcmin
  exact sepFor_spec hp hc hpmin hcmin

/-- C7 (witness): the separator decision at the two dates of the
specification's example. -/
theorem claim7_witness :
    sepFor "2025-4-14 Mon (2.0h): A." "2025-4-13 Sun (1.0h): B." =
      ("\n\n---\n\n" : String).data ∧
    sepFor "2025-4-15 Tue (2.0h): A." "2025-4-14 Mon (1.0h): B." = ("\n\n" : String).data := by
  have h := claim7_separators
  constructor
  · exact ((h.2.1 "2025-4-14 Mon (2.0h): A." "2025-4-13 Sun (1.0h): B."
      (2025, 4, 14) (2025, 4, 13) (by decide) (by decide) (by decide) (by decide)).1).mpr
      (by decide)
  · exact ((h.2.1 "2025-4-15 Tue (2.0h): A." "2025-4-14 Mon (1.0h): B."
      (2025, 4, 15) (2025, 4, 14) (by decide) (by decide) (by decide) (by decide)).2).mpr
      (by decide)

/-- C8: a day whose computed hours round to exactly zero is skipped: its
loop iteration returns the document unchanged (no line, no splice), so
removing such a day from the processed range changes nothing and every
pre-existing line is untouched by it. -/
theorem claim8_zero_day (now : ℚ) (day : Day)
    (h : calculateDailyHours now day.entries = 0) :
    (∀ content, dayStep now content day = content) ∧
    (∀ content pre post, applyDays now content (pre ++ day :: post) =
      applyDays now content (pre ++ post)) := by
  have h1 : ∀ content, dayStep now content day = content := by
    intro content
    unfold dayStep
    rw [if_pos h]
  refine ⟨h1, ?_⟩
  intro content pre post
  unfold applyDays
  rw [List.foldl_append, List.foldl_append, List.foldl_cons, h1]

/-- C8 (witness): the zero-hour day leaves a document for another date
byte-identical. -/
theorem claim8_witness :
    calculateDailyHours 0 zeroDay.entries = 0 ∧
    dayStep 0 "2025-4-10 Thu (1.0h): Keep.\n" zeroDay = "2025-4-10 Thu (1.0h): Keep.\n" :=
  ⟨by decide, (claim8_zero_day 0 zeroDay (by decide)).1 "2025-4-10 Thu (1.0h): Keep.\n"⟩

/-- C9: whichever boundary call raises — the document read, the entry
fetch, or the write — the exception is caught at the top of
`sync_toggl_to_github`: the run returns `False`, performs no write of the
edited document, and attempts the error mail exactly when the three
notification settings are configured; the mail transport's own outcome
never changes the result. -/
theorem claim9_failure (cfg : NotifyConfig) (env : SyncEnv) (t : Except String Unit) :
    (∀ e, env.fetchContent = .error e →
      syncFull cfg env t = ⟨false, none, notifyConfigured cfg⟩) ∧
    (∀ e cs, env.fetchContent = .ok cs → env.fetchDays = .error e →
      syncFull cfg env t = ⟨false, none, notifyConfigured cfg⟩) ∧
    (∀ e cs days, env.fetchContent = .ok cs → env.fetchDays = .ok days →
      applyDays env.now cs.1 days ≠ cs.1 → env.writeResult = .error e →
      syncFull cfg env t = ⟨false, none, notifyConfigured cfg⟩) ∧
    (∀ t2, syncFull cfg env t = syncFull cfg env t2) ∧
    ((syncFull cfg env t).returned = false →
      (syncFull cfg env t).written = none ∧
      (syncFull cfg env t).notified = notifyConfigured cfg) := by
  refine ⟨?_, ?_, ?_, fun t2 => rfl, ?_⟩
  · intro e he
    unfold syncFull
    rw [he]
    rfl
  · intro e cs hcs he
    unfold syncFull
    rw [hcs, he]
    rfl
  · intro e cs days hcs hds hne he
    unfold syncFull
    rw [hcs, hds, exceptBind_ok, exceptBind_ok]
    rw [if_neg hne, he]
    rfl
  · intro hret
    unfold syncFull at hret ⊢
    rcases hcs : env.fetchContent with e | cs
    · exact ⟨rfl, rfl⟩
    · rcases hds : env.fetchDays with e | days
      · exact ⟨rfl, rfl⟩
      · rw [hcs, hds] at hret
        rw [exceptBind_ok, exceptBind_ok] at hret ⊢
        by_cases hsp : applyDays env.now cs.1 days = cs.1
        · rw [if_pos hsp] at hret
          exact Bool.noConfusion hret
        · rw [if_neg hsp] at hret ⊢
          rcases hw : env.writeResult with e | u
          · exact ⟨rfl, rfl⟩
          · rw [hw] at hret
            exact Bool.noConfusion hret

/-- C9 (witness): a failing document read with a fully configured mailer. -/
theorem claim9_witness :
    syncFull cfgFull envFetchFail (.ok ()) = ⟨false, none, true⟩ := by
  have h := (claim9_failure cfgFull envFetchFail (.ok ())).1 "boom" rfl
  rw [h]
  decide

/-- C10: the re-rendered document always ends in exactly one newline:
title with entries renders as title, blank line, entries, final newline;
title alone as the title line plus a newline; no title and no entries
degenerates to the single newline string. -/
theorem claim10_trailing_newline :
    (∀ s, ∃ t, (renormalize s).data = t ++ ['\n'] ∧ ¬ t.getLast? = some '\n') ∧
    renormalize "" = "\n" ∧
    renormalize "# T\n" = "# T\n" ∧
    renormalize "# My Log\n\n2025-4-9 Wed (2.0h): Foo.\n" =
      "# My Log\n\n2025-4-9 Wed (2.0h): Foo.\n" ∧
    renormalize "2025-4-9 Wed (2.0h): Foo." = "2025-4-9 Wed (2.0h): Foo.\n" :=
  ⟨renormalize_one_nl, by decide, by decide, by decide, by decide⟩

end ClaimEvidence

end TG
